import Mathlib

/-!
Verification development for the rule-pattern core of the wn3 repository.

The Rust sources embedded here (shallowly) are:
* `src/def/sed.rs` — the `Sed` pattern type, its compiler `parse_sed`, the
  `Display` rendering, the pure evaluator predicates (`should_delete`,
  `is_el_match`, `is_css_match`, `apply_text`) and the whole-document
  mutator (`apply_full_expensive` with its delete/substitute helpers);
* `src/overrides.rs` — `OverrideTracker`, `OverrideSet` and `with_url`;
* `src/common.rs` — the scoped-activation walker `descend`.

Strings are embedded as `List Char` (the Rust code only ever slices at
ASCII separator boundaries, so byte indices and char indices agree at
every slice the parser takes).  The external collaborators (the CSS
selector engine and the regex engine) are treated as the spec treats
them — opaque, correct libraries: definitions are parameterised by a
selector-match function and regex compile/match/replace functions.  A
small concrete regex engine (covering the literal/`.`/`*`/`^`/`$`
fragment that the claims exercise) instantiates those parameters where a
claim names concrete rule strings.
-/

namespace WnSpec

/-! ## Operation and pattern (`Op`, `Sed` in src/def/sed.rs) -/

/-- `enum Op` from sed.rs: `Match`, `Delete`, `Print`, `PrintAll`,
`Replace(Box<str>)`. -/
inductive Op where
  | Match : Op
  | Delete : Op
  | Print : Op
  | PrintAll : Op
  | Replace : List Char → Op
deriving DecidableEq, Repr

/-- `struct Sed { op, sel: Option<(Selector, Box<str>)>, reg: Option<Regex> }`.
`σ` is the compiled-selector type of the external selector engine, `ρ` the
compiled-regex type of the external regex engine.  A compiled regex is
stored together with its source text (the real `Regex` carries `as_str`);
a compiled selector is stored with its source text exactly as in the Rust
struct. -/
structure Sed (σ ρ : Type) where
  op : Op
  sel : Option (σ × List Char)
  reg : Option (ρ × List Char)

/-- `Sed::is_del`. -/
def Sed.is_del {σ ρ : Type} (s : Sed σ ρ) : Bool :=
  match s.op with
  | .Delete => true
  | _ => false

/-- `Sed::is_sub`. -/
def Sed.is_sub {σ ρ : Type} (s : Sed σ ρ) : Bool :=
  match s.op with
  | .Replace _ => true
  | _ => false

/-- `Sed::is_matcher`. -/
def Sed.is_matcher {σ ρ : Type} (s : Sed σ ρ) : Bool :=
  match s.op with
  | .Match => true
  | _ => false

/-- `Sed::is_destructive`. -/
def Sed.is_destructive {σ ρ : Type} (s : Sed σ ρ) : Bool :=
  match s.op with
  | .Delete => true
  | .Replace _ => true
  | _ => false

/-- `impl PartialEq for Sed`: operation equal, regex source texts equal,
selector pairs equal (the derived `PartialEq` on `(Selector, Box<str>)`). -/
def sedEq {σ ρ : Type} (a b : Sed σ ρ) : Prop :=
  a.op = b.op ∧ a.reg.map Prod.snd = b.reg.map Prod.snd ∧ a.sel = b.sel

/-! ## The pattern compiler (`parse_sed` in src/def/sed.rs)

The compiler is parameterised by the two external engines:
`selP` models `Selector::parse` (`none` = the engine rejects the text) and
`regP` models `Regex::new`.  Error messages are abbreviated; only the
ok/error distinction is meaningful to the claims. -/

/-- The escape-aware segment scanner: the loop
`while let Some((_i, c)) = ch.next_if(|c| c.1 != '/') { if c == '\\' { ch.next().context(..)? } }`
occurring three times in `parse_sed`.  Returns the number of characters
consumed, i.e. the length of the segment before the first unescaped `/`
(or before the end of input); a backslash consumes the following
character, and a backslash at the end of input is an error. -/
def scanSeg : List Char → Except String Nat
  | [] => .ok 0
  | c :: rest =>
    if c = '/' then .ok 0
    else if c = '\\' then
      match rest with
      | [] => .error ("backslash without escaped character")
      | _ :: rest2 => (scanSeg rest2).map (· + 2)
    else (scanSeg rest).map (· + 1)

/-- The first characters admissible as a sed operation: `"sdpP/;"`. -/
def opChars : List Char := ['s', 'd', 'p', 'P', '/', ';']

/-- The `'\0'` placeholder used for `endc` when the selector segment runs to
the end of the input (`ch.next().unwrap_or((s.len(), '\0'))`). -/
def nullChar : Char := Char.ofNat 0

/-- `sel_str.trim().is_empty()`. -/
def trimEmpty (xs : List Char) : Bool := xs.all Char.isWhitespace

/-- The `selsep == ';'` block of `parse_sed`: scan the selector segment,
determine `(endi, endc)` (the `'\0'` case at end of input), reject an
empty (after trim) selector, compile it through the selector engine.
Returns the parsed selector (with source), the new `selsep` (`endc`) and
the rest of the input. -/
def parseSelStage {σ : Type} (selP : List Char → Option σ) (selsep : Char)
    (cur : List Char) : Except String (Option (σ × List Char) × Char × List Char) :=
  if selsep = ';' then
    match scanSeg cur with
    | .error e => .error e
    | .ok n =>
      let selStr := cur.take n
      if trimEmpty selStr then .error ("cannot use empty selector")
      else
        match selP selStr with
        | none => .error ("invalid selector")
        | some sv =>
          match cur.drop n with
          | [] => .ok (some (sv, selStr), nullChar, [])
          | c :: cur2 => .ok (some (sv, selStr), c, cur2)
  else .ok (none, selsep, cur)

/-- The `selsep == '/'` block of `parse_sed`: scan the regex segment,
require the trailing `/`, reject an empty regex, compile it via the regex
engine. -/
def parseRegStage {ρ : Type} (regP : List Char → Option ρ) (selsep : Char)
    (cur : List Char) : Except String (Option (ρ × List Char) × List Char) :=
  if selsep = '/' then
    match scanSeg cur with
    | .error e => .error e
    | .ok n =>
      match cur.drop n with
      | [] => .error ("no trailing slash for regex")
      | _ :: cur2 =>
        let regStr := cur.take n
        if regStr.isEmpty then .error ("cannot use empty regex")
        else
          match regP regStr with
          | none => .error ("invalid regex")
          | some rv => .ok (some (rv, regStr), cur2)
  else .ok (none, cur)

/-- The `opk == 's'` replacement block: scan the replacement segment and
require (`ch.peek()`) a trailing `/` to exist; the replacement is the raw
text before it. -/
def parseRepStage (cur : List Char) : Except String (List Char) :=
  match scanSeg cur with
  | .error e => .error e
  | .ok n =>
    match cur.drop n with
    | [] => .error ("no trailing slash for replacement")
    | _ => .ok (cur.take n)

/-- Tail of `parse_sed`: the `assert!(sel.is_some() || reg.is_some())` and
the `ensure!((op == Op::Print).implies(reg.is_some()))` validation (the
assert is modelled as an error; `parse_sed` never reaches it). -/
def finishSed {σ ρ : Type} (op : Op) (sel : Option (σ × List Char))
    (reg : Option (ρ × List Char)) : Except String (Sed σ ρ) :=
  if sel.isSome ∨ reg.isSome then
    if op = Op.Print ∧ reg.isNone then .error ("p directive requires regex")
    else .ok ⟨op, sel, reg⟩
  else .error ("assert failed: sel or reg")

/-- Body of `parse_sed` after the operation character `opk` and the first
separator `selsep` have been consumed; `cur` is the remaining input. -/
def parseAfterSep {σ ρ : Type} (selP : List Char → Option σ)
    (regP : List Char → Option ρ) (opk selsep : Char) (cur : List Char) :
    Except String (Sed σ ρ) :=
  match parseSelStage selP selsep cur with
  | .error e => .error e
  | .ok (sel, selsep2, cur2) =>
    match parseRegStage regP selsep2 cur2 with
    | .error e => .error e
    | .ok (reg, cur3) =>
      if opk = 's' then
        if reg.isSome then
          match parseRepStage cur3 with
          | .error e => .error e
          | .ok rep => finishSed (Op.Replace rep) sel reg
        else .error ("substitute requires replacement")
      else
        let op : Op :=
          if opk = 'd' then Op.Delete
          else if opk = 'p' then Op.Print
          else if opk = 'P' then Op.PrintAll
          else Op.Match
        finishSed op sel reg

/-- `fn parse_sed(s: &str) -> SedParseRes` (sed.rs lines 377-480). -/
def parse_sed {σ ρ : Type} (selP : List Char → Option σ)
    (regP : List Char → Option ρ) (s : List Char) : Except String (Sed σ ρ) :=
  match s with
  | [] => .error ("empty string")
  | opk :: rest =>
    if opk ∈ opChars then
      if opk = '/' ∨ opk = ';' then
        parseAfterSep selP regP opk opk rest
      else
        match rest with
        | [] => .error ("no selector")
        | selsep :: cur =>
          if selsep = '/' ∨ selsep = ';' then
            parseAfterSep selP regP opk selsep cur
          else .error ("expected slash or semicolon")
    else .error ("not a valid sed operation")

/-! ## `impl Display for Sed` (sed.rs lines 482-505) -/

/-- The operation prefix letter: `Match` prints nothing (the `break 'pfx`),
other operations print their letter. -/
def dispOp : Op → List Char
  | .Match => []
  | .Delete => ['d']
  | .Print => ['p']
  | .PrintAll => ['P']
  | .Replace _ => ['s']

/-- `impl Display for Sed`: operation letter, then `;{selector source}`,
then `/{regex source}/`, then for `Replace` the replacement followed by a
final `/`. -/
def dispSed {σ ρ : Type} (sed : Sed σ ρ) : List Char :=
  dispOp sed.op
    ++ (match sed.sel with
        | none => []
        | some (_, s) => ';' :: s)
    ++ (match sed.reg with
        | none => []
        | some (_, r) => '/' :: (r ++ ['/']))
    ++ (match sed.op with
        | .Replace rep => rep ++ ['/']
        | _ => [])

/-! ## A concrete regex engine

The regex engine (`regex_lite`) is an external collaborator; claims that
name concrete rule strings need an executable model of the fragment they
use: literal characters, `.`, a `*` repetition of a single
literal-or-dot, and the `^` / `$` anchors (no multiline: `^` matches only
at the start of the haystack and `$` only at its end, as in `regex_lite`
with default flags).  `regParseC` models `Regex::new` on this fragment
and returns `none` outside it. -/

/-- A starrable atom: a literal character or `.` (any character except
newline). -/
inductive RBase where
  | lit : Char → RBase
  | dot : RBase
deriving DecidableEq, Repr

/-- One item of a regex sequence: an atom, a starred atom, or an anchor. -/
inductive RItem where
  | base : RBase → RItem
  | star : RBase → RItem
  | bol : RItem
  | eol : RItem
deriving DecidableEq, Repr

/-- A compiled regex: a sequence of items. -/
abbrev Rg := List RItem

/-- Where a single atom can take position `i` in haystack `s`:
one step forward on a character match, nowhere otherwise. -/
def baseEnd (s : List Char) (b : RBase) (i : Nat) : Option Nat :=
  match s.get? i with
  | none => none
  | some d =>
    match b with
    | .lit c => if d = c then some (i + 1) else none
    | .dot => if d = '\n' then none else some (i + 1)

/-- End positions reachable by zero or more repetitions of atom `b`
starting at `i` (greedy star; `fuel` bounds the iteration count and
`s.length + 1 - i` always suffices since each step advances). -/
def starEnds (s : List Char) (b : RBase) : Nat → Nat → List Nat
  | 0, i => [i]
  | fuel + 1, i =>
    i :: (match baseEnd s b i with
          | some j => if i < j then starEnds s b fuel j else []
          | none => [])

/-- End positions reachable by one regex item from position `i`. -/
def itemEnds (s : List Char) (it : RItem) (i : Nat) : List Nat :=
  match it with
  | .base b =>
    match baseEnd s b i with
    | some j => [j]
    | none => []
  | .star b => starEnds s b (s.length + 1 - i) i
  | .bol => if i = 0 then [i] else []
  | .eol => if i = s.length then [i] else []

/-- End positions of a whole-sequence match starting at position `i`. -/
def seqEnds (s : List Char) (r : Rg) (i : Nat) : List Nat :=
  match r with
  | [] => [i]
  | it :: rest => (itemEnds s it i).flatMap (seqEnds s rest)

/-- The match at position `i`, if any, taking the greedy (longest) end. -/
def matchEndAt (s : List Char) (r : Rg) (i : Nat) : Option Nat :=
  (seqEnds s r i).max?

/-- Leftmost match at a position `≥ i` (searching at most `fuel`
positions): returns `(start, end)`. -/
def findFrom (s : List Char) (r : Rg) : Nat → Nat → Option (Nat × Nat)
  | 0, _ => none
  | fuel + 1, i =>
    match matchEndAt s r i with
    | some j => some (i, j)
    | none => findFrom s r fuel (i + 1)

/-- `Regex::is_match`. -/
def isMatchR (r : Rg) (s : List Char) : Bool :=
  (findFrom s r (s.length + 1) 0).isSome

/-- `s[i..j)`. -/
def sliceL (s : List Char) (i j : Nat) : List Char := (s.drop i).take (j - i)

/-- Worker for `replace_all`: replace successive non-overlapping matches
from position `i` on, copying the text between them; an empty match
consumes the replacement and then copies one further character so the
scan always advances. -/
def raGo (r : Rg) (rep : List Char) (s : List Char) : Nat → Nat → List Char
  | 0, i => s.drop i
  | fuel + 1, i =>
    match findFrom s r (s.length + 1 - i) i with
    | none => s.drop i
    | some (ms, me) =>
      sliceL s i ms ++ rep ++
        (if ms < me then raGo r rep s fuel me
         else
           match s.get? ms with
           | some c => c :: raGo r rep s fuel (ms + 1)
           | none => [])

/-- `Regex::replace_all` with a `NoExpand` (literal) replacement. -/
def replaceAllR (r : Rg) (rep : List Char) (s : List Char) : List Char :=
  raGo r rep s (s.length + 1) 0

/-- `Regex::new` on the modelled fragment: `^`, `$`, `.`, `\x` escapes,
literals, with an optional postfix `*` on a literal or dot.  A `*` with
no preceding atom is rejected (as the real engine rejects it); syntax
outside the fragment is `none` (the model simply does not cover it). -/
def regParseC : List Char → Option Rg
  | [] => some []
  | '^' :: rest => (regParseC rest).map (RItem.bol :: ·)
  | '$' :: rest => (regParseC rest).map (RItem.eol :: ·)
  | '*' :: _ => none
  | '\\' :: [] => none
  | '\\' :: d :: '*' :: rest => (regParseC rest).map (RItem.star (RBase.lit d) :: ·)
  | '\\' :: d :: rest => (regParseC rest).map (RItem.base (RBase.lit d) :: ·)
  | c :: '*' :: rest =>
    (regParseC rest).map (RItem.star (if c = '.' then RBase.dot else RBase.lit c) :: ·)
  | c :: rest =>
    (regParseC rest).map (RItem.base (if c = '.' then RBase.dot else RBase.lit c) :: ·)

/-! ## The document tree

`scraper`/`ego_tree` trees are embedded as rose trees.  Every element
carries the arena node id (`ego_tree` assigns one to every node; only
element ids matter to the embedded code, text nodes are matched by
content).  The selector engine being external, selector matching is a
parameter `selM : σ → DNode → Bool` applied to the element (the node
together with its subtree); regex matching on text is a parameter
`regM : ρ → List Char → Bool`. -/

/-- The data of an element node: tag name, attributes, arena id. -/
structure ElemData where
  name : String
  attrs : List (String × String)
  id : Nat

/-- A document-tree node: an element with children, or a text node. -/
inductive DNode where
  | elem : ElemData → List DNode → DNode
  | text : List Char → DNode

mutual

/-- `ElementRef::text()`: the contents of every text node in the subtree,
in document order. -/
def textsOf : DNode → List (List Char)
  | .elem _ cs => textsOfList cs
  | .text t => [t]

/-- `textsOf` over a forest of children. -/
def textsOfList : List DNode → List (List Char)
  | [] => []
  | c :: cs => textsOf c ++ textsOfList cs

end

/-- `e.attr(k)`: first attribute with the given name. -/
def attrOf (d : ElemData) (k : String) : Option String :=
  (d.attrs.find? (fun p => p.1 == k)).map (fun p => p.2)

/-! ## The pattern evaluator (`Sed` methods, sed.rs lines 156-225) -/

/-- `Sed::is_css_match`: true if there is no selector, else whether the
selector matches the element itself. -/
def is_css_match {σ ρ : Type} (selM : σ → DNode → Bool) (p : Sed σ ρ)
    (el : DNode) : Bool :=
  match p.sel with
  | some (sl, _) => selM sl el
  | none => true

/-- `Sed::is_el_match`: css match, and if a regex is present some text in
the subtree (`el.text().any(..)`) matches it. -/
def is_el_match {σ ρ : Type} (selM : σ → DNode → Bool)
    (regM : ρ → List Char → Bool) (p : Sed σ ρ) (el : DNode) : Bool :=
  if ¬ is_css_match selM p el then false
  else
    match p.reg with
    | some (r, _) => (textsOf el).any (fun t => regM r t)
    | none => true

/-- `Sed::should_delete`: false unless the operation is `Delete`, else
`is_el_match`. -/
def should_delete {σ ρ : Type} (selM : σ → DNode → Bool)
    (regM : ρ → List Char → Bool) (p : Sed σ ρ) (el : DNode) : Bool :=
  if ¬ p.is_del then false
  else is_el_match selM regM p el

/-- `Sed::apply_text`: for `Replace`, `reg.replace_all(s, NoExpand(rep))`
(the replace function `rrep` of the regex engine); for every other
operation the input is returned unchanged.  The `Replace`-without-regex
case is `unreachable!` in the source (the compiler only ever produces a
`Replace` together with a regex); the model returns the input there and
every theorem touching it carries that compiler invariant as a
hypothesis. -/
def apply_text {σ ρ : Type} (rrep : ρ → List Char → List Char → List Char)
    (p : Sed σ ρ) (s : List Char) : List Char :=
  match p.op with
  | .Replace rep =>
    match p.reg with
    | some (r, _) => rrep r rep s
    | none => s
  | _ => s

/-! ## Claim C1 -/

/-- C1: for every compiled pattern and every element `el`,
`should_delete el` is true iff the operation is `Delete`, the selector
(when present) matches `el` itself, and, when a regex is present, at
least one text node within the subtree of `el` matches the regex.  In
particular `should_delete` is false for every element whenever the
operation is not `Delete`. -/
theorem C1_should_delete_iff {σ ρ : Type} (selM : σ → DNode → Bool)
    (regM : ρ → List Char → Bool) (p : Sed σ ρ) (el : DNode) :
    should_delete selM regM p el = true ↔
      (p.op = Op.Delete
        ∧ (∀ sp ∈ p.sel, selM sp.1 el = true)
        ∧ (∀ rp ∈ p.reg, ∃ t ∈ textsOf el, regM rp.1 t = true)) := by
  unfold should_delete is_el_match is_css_match Sed.is_del
  cases hop : p.op <;> cases hsel : p.sel <;> cases hreg : p.reg <;>
    simp_all [List.any_eq_true]

/-! ## Claim C6 -/

/-- If a regex matches nowhere in `s`, `replace_all` returns `s`
unchanged. -/
theorem replaceAllR_of_not_isMatch (r : Rg) (rep s : List Char)
    (h : isMatchR r s = false) : replaceAllR r rep s = s := by
  unfold isMatchR at h
  cases hx : findFrom s r (s.length + 1) 0 with
  | some v => rw [hx] at h; simp at h
  | none =>
    unfold replaceAllR raGo
    simp [hx]

/-- The `s/TLN //` pattern of the spec example, as a compiled value. -/
def sedTLN : Sed Unit Rg :=
  ⟨Op.Replace [],
   none,
   some ([RItem.base (RBase.lit 'T'), RItem.base (RBase.lit 'L'),
          RItem.base (RBase.lit 'N'), RItem.base (RBase.lit ' ')],
         ['T', 'L', 'N', ' '])⟩

/-- C6: `apply_text` returns the input unchanged for every non-substitute
operation; for `Substitute` it returns the input with all non-overlapping
regex matches replaced by the literal replacement (`replace_all` with
`NoExpand`); consequently re-applying it is idempotent whenever the regex
cannot match the result; and on the spec examples: `s/TLN //` maps
`"TLN asdf"` to `"asdf"` (and again to `"asdf"`), `s/TLN.*$//` maps
`"TLN asdf"` to `""`, and `s/^TLN//` leaves `" TLN"` unchanged. -/
theorem C6_apply_text :
    (∀ {σ ρ : Type} (rrep : ρ → List Char → List Char → List Char)
        (p : Sed σ ρ) (s : List Char),
        p.is_sub = false → apply_text rrep p s = s)
    ∧ (∀ {σ : Type} (p : Sed σ Rg) (rep : List Char) (r : Rg × List Char)
          (s : List Char), p.op = Op.Replace rep → p.reg = some r →
          apply_text replaceAllR p s = replaceAllR r.1 rep s)
    ∧ (∀ {σ : Type} (p : Sed σ Rg) (s : List Char),
          (∀ r ∈ p.reg, isMatchR r.1 (apply_text replaceAllR p s) = false) →
          apply_text replaceAllR p (apply_text replaceAllR p s)
            = apply_text replaceAllR p s)
    ∧ (∀ selP : List Char → Option Unit,
          (parse_sed selP regParseC (("s/TLN //").toList)).map
              (fun sed => apply_text replaceAllR sed (("TLN asdf").toList))
            = .ok (("asdf").toList)
          ∧ (parse_sed selP regParseC (("s/TLN //").toList)).map
              (fun sed => apply_text replaceAllR sed
                (apply_text replaceAllR sed (("TLN asdf").toList)))
            = .ok (("asdf").toList))
    ∧ (∀ selP : List Char → Option Unit,
          (parse_sed selP regParseC (("s/TLN.*$//").toList)).map
              (fun sed => apply_text replaceAllR sed (("TLN asdf").toList))
            = .ok [])
    ∧ (∀ selP : List Char → Option Unit,
          (parse_sed selP regParseC (("s/^TLN//").toList)).map
              (fun sed => apply_text replaceAllR sed ((" TLN").toList))
            = .ok ((" TLN").toList)) := by
  refine ⟨?_, ?_, ?_, ?_, ?_, ?_⟩
  · intro σ ρ rrep p s h
    cases hop : p.op <;> simp_all [apply_text, Sed.is_sub]
  · intro σ p rep r s hop hreg
    unfold apply_text
    rw [hop, hreg]
  · intro σ p s hm
    cases hop : p.op <;> simp only [apply_text, hop]
    cases hreg : p.reg with
    | none => rfl
    | some r =>
      have := hm r (by rw [Option.mem_def, hreg])
      rw [apply_text, hop, hreg] at this
      exact replaceAllR_of_not_isMatch r.1 _ _ this
  · intro selP; exact ⟨rfl, rfl⟩
  · intro selP; rfl
  · intro selP; rfl

/-- Witness for C6: the idempotence clause applied to the concrete
`s/TLN //` pattern on `"TLN asdf"`, whose regex cannot match the
replaced result. -/
theorem C6_apply_text_witness :
    (∀ r ∈ sedTLN.reg,
        isMatchR r.1 (apply_text replaceAllR sedTLN (("TLN asdf").toList)) = false)
    ∧ apply_text replaceAllR sedTLN
        (apply_text replaceAllR sedTLN (("TLN asdf").toList))
      = apply_text replaceAllR sedTLN (("TLN asdf").toList) := by
  have hm : ∀ r ∈ sedTLN.reg,
      isMatchR r.1 (apply_text replaceAllR sedTLN (("TLN asdf").toList)) = false := by
    intro r hr
    rw [Option.mem_def] at hr
    rw [show sedTLN.reg = some (sedTLN.reg.get (by decide)) from rfl] at hr
    injection hr with h
    rw [← h]
    decide
  exact ⟨hm, C6_apply_text.2.2.1 sedTLN (("TLN asdf").toList) hm⟩

/-! ## Claim C7 -/

/-- C7: the compiler rejects the eight malformed rule strings for every
behaviour of the external selector/regex engines, and accepts the nine
well-formed ones for every pair of engines that accepts the selector
texts `div` and `*` and the regex text `.` (as the real engines do). -/
theorem C7_parse_accept_reject :
    (∀ {σ ρ : Type} (selP : List Char → Option σ) (regP : List Char → Option ρ),
        (parse_sed selP regP []).isOk = false
        ∧ (parse_sed selP regP (("/").toList)).isOk = false
        ∧ (parse_sed selP regP (("s/").toList)).isOk = false
        ∧ (parse_sed selP regP (("s/./").toList)).isOk = false
        ∧ (parse_sed selP regP (("d///").toList)).isOk = false
        ∧ (parse_sed selP regP (("p/").toList)).isOk = false
        ∧ (parse_sed selP regP (("p;div").toList)).isOk = false
        ∧ (parse_sed selP regP (("d;").toList)).isOk = false)
    ∧ (∀ {σ ρ : Type} (selP : List Char → Option σ) (regP : List Char → Option ρ),
        (selP (("div").toList)).isSome = true →
        (selP (("*").toList)).isSome = true →
        (regP ((".").toList)).isSome = true →
        (parse_sed selP regP (("/./").toList)).isOk = true
        ∧ (parse_sed selP regP ((";*/./").toList)).isOk = true
        ∧ (parse_sed selP regP ((";*").toList)).isOk = true
        ∧ (parse_sed selP regP (("s/.//").toList)).isOk = true
        ∧ (parse_sed selP regP (("s/./foo/").toList)).isOk = true
        ∧ (parse_sed selP regP (("d/./").toList)).isOk = true
        ∧ (parse_sed selP regP (("d;div/./").toList)).isOk = true
        ∧ (parse_sed selP regP (("d;div").toList)).isOk = true
        ∧ (parse_sed selP regP (("P;div").toList)).isOk = true) := by
  constructor
  · intro σ ρ selP regP
    refine ⟨rfl, rfl, rfl, ?_, rfl, rfl, ?_, rfl⟩
    · have hr : ∀ o : Option ρ, regP [('.' : Char)] = o →
          (parse_sed selP regP (("s/./").toList)).isOk = false := by
        intro o ho
        cases o <;>
          simp +decide [parse_sed, parseAfterSep, parseSelStage, parseRegStage,
            parseRepStage, finishSed, scanSeg, opChars, String.toList,
            Except.map, Except.isOk, Except.toBool, List.take, List.drop, ho]
      exact hr _ rfl
    · have hs : ∀ o : Option σ, selP [('d' : Char), 'i', 'v'] = o →
          (parse_sed selP regP (("p;div").toList)).isOk = false := by
        intro o ho
        cases o <;>
          simp +decide [parse_sed, parseAfterSep, parseSelStage, parseRegStage,
            parseRepStage, finishSed, scanSeg, opChars, trimEmpty,
            String.toList, Except.map, Except.isOk, Except.toBool,
            List.take, List.drop, ho]
      exact hs _ rfl
  · intro σ ρ selP regP hdiv hstar hdot
    obtain ⟨sdiv, hsdiv⟩ := Option.isSome_iff_exists.mp hdiv
    obtain ⟨sstar, hsstar⟩ := Option.isSome_iff_exists.mp hstar
    obtain ⟨rdot, hrdot⟩ := Option.isSome_iff_exists.mp hdot
    have hsdiv2 : selP [('d' : Char), 'i', 'v'] = some sdiv := hsdiv
    have hsstar2 : selP [('*' : Char)] = some sstar := hsstar
    have hrdot2 : regP [('.' : Char)] = some rdot := hrdot
    refine ⟨?_, ?_, ?_, ?_, ?_, ?_, ?_, ?_, ?_⟩ <;>
      simp +decide [parse_sed, parseAfterSep, parseSelStage, parseRegStage,
        parseRepStage, finishSed, scanSeg, opChars, trimEmpty,
        String.toList, Except.map, Except.isOk, Except.toBool,
        List.take, List.drop, hsdiv2, hsstar2, hrdot2]

/-- Witness for C7: the accept clause instantiated with a concrete pair
of engines (the trivial selector compiler and the concrete regex
compiler), which accept `div`, `*` and `.`. -/
theorem C7_parse_accept_reject_witness :
    (parse_sed (fun _ => some ()) regParseC (("/./").toList)).isOk = true
    ∧ (parse_sed (fun _ => some ()) regParseC ((";*/./").toList)).isOk = true
    ∧ (parse_sed (fun _ => some ()) regParseC ((";*").toList)).isOk = true
    ∧ (parse_sed (fun _ => some ()) regParseC (("s/.//").toList)).isOk = true
    ∧ (parse_sed (fun _ => some ()) regParseC (("s/./foo/").toList)).isOk = true
    ∧ (parse_sed (fun _ => some ()) regParseC (("d/./").toList)).isOk = true
    ∧ (parse_sed (fun _ => some ()) regParseC (("d;div/./").toList)).isOk = true
    ∧ (parse_sed (fun _ => some ()) regParseC (("d;div").toList)).isOk = true
    ∧ (parse_sed (fun _ => some ()) regParseC (("P;div").toList)).isOk = true :=
  C7_parse_accept_reject.2 (fun _ => some ()) regParseC (by decide) (by decide)
    (by decide)

/-! ## The whole-document mutator (`apply_full_expensive`, sed.rs 229-340)

A document (`Html`) is a root `Document` node with a forest of children;
only the forest matters here (the `Document` node is neither an element
nor text, so it is never selected, never detached and holds no text).
`detach`-ing every node of a collected id set is modelled by one pruning
pass that removes every element whose id is in the set (detaching a node
that sits inside an already-detached subtree does not change the
serialized document, and ids are collected before any detach happens).
The final serialize/reparse round trip is the identity on the tree (the
spec treats it as lossless); panics (`expect`/`unreachable!`) are
modelled as `none`. -/

/-- A parsed `Html` document: the children of the root `Document` node. -/
structure HDoc where
  kids : List DNode

/-- Whether some text node strictly below this node matches the regex:
the ancestor-closure test of `apply_deletes_expensive` (a node id enters
`reg_ids` iff the node is a proper ancestor of a regex-matching text
node, i.e. iff matching text occurs somewhere under it). -/
def strictTextMatch {ρ : Type} (regM : ρ → List Char → Bool) (r : ρ) :
    DNode → Bool
  | .elem _ cs => (textsOfList cs).any (fun t => regM r t)
  | .text _ => false

mutual

/-- Ids of the elements satisfying `p`, in document order (`html.select`
collects matching elements over the whole tree). -/
def collectElemIds (p : DNode → Bool) : DNode → List Nat
  | .elem d cs =>
    (if p (.elem d cs) then [d.id] else []) ++ collectElemIdsList p cs
  | .text _ => []

/-- `collectElemIds` over a forest. -/
def collectElemIdsList (p : DNode → Bool) : List DNode → List Nat
  | [] => []
  | c :: cs => collectElemIds p c ++ collectElemIdsList p cs

end

mutual

/-- Detach every element whose id satisfies `del` (returning the node as
a singleton forest, or nothing if it was detached). -/
def pruneNode (del : Nat → Bool) : DNode → List DNode
  | .elem d cs => if del d.id then [] else [.elem d (pruneForest del cs)]
  | .text t => [.text t]

/-- `pruneNode` over a forest. -/
def pruneForest (del : Nat → Bool) : List DNode → List DNode
  | [] => []
  | c :: cs => pruneNode del c ++ pruneForest del cs

end

mutual

/-- Specification-side pruning: remove every element satisfying the
predicate `p` directly (no ids). -/
def specPruneNode (p : DNode → Bool) : DNode → List DNode
  | .elem d cs => if p (.elem d cs) then [] else [.elem d (specPruneForest p cs)]
  | .text t => [.text t]

/-- `specPruneNode` over a forest. -/
def specPruneForest (p : DNode → Bool) : List DNode → List DNode
  | [] => []
  | c :: cs => specPruneNode p c ++ specPruneForest p cs

end

/-- `Sed::apply_deletes_expensive` (sed.rs 293-340).  With a regex:
collect the ids of regex-matching text nodes, close them under proper
ancestors (`reg_ids`), separately collect the selected element ids, and
detach the intersection — `self.sel().expect("delete has sel")` is a
panic (`none`) when the pattern has no selector.  Without a regex:
detach every selected element (again the missing-selector `expect` is a
panic).  The trailing serialize/reparse is the identity here. -/
def apply_deletes_expensive {σ ρ : Type} (selM : σ → DNode → Bool)
    (regM : ρ → List Char → Bool) (sed : Sed σ ρ) (doc : HDoc) : Option HDoc :=
  match sed.reg with
  | some (r, _) =>
    match sed.sel with
    | none => none
    | some (sl, _) =>
      let regIds := collectElemIdsList (strictTextMatch regM r) doc.kids
      let elIds := collectElemIdsList (fun n => selM sl n) doc.kids
      some ⟨pruneForest (fun i => elIds.contains i && regIds.contains i) doc.kids⟩
  | none =>
    match sed.sel with
    | none => none
    | some (sl, _) =>
      let ids := collectElemIdsList (fun n => selM sl n) doc.kids
      some ⟨pruneForest (fun i => ids.contains i) doc.kids⟩

mutual

/-- The in-place text rewriting of `apply_subs_expensive`: under a
selected element (or everywhere when the pattern has no selector —
modelled by starting with `inSel = true` and `p` constantly false),
every regex-matching text node is rewritten with `apply_text`.  The
outermost-match dedup of the source (`visited_els`) does not change
which text nodes are rewritten: a text node is rewritten iff some
selected element contains it. -/
def subsNode (p : DNode → Bool) (rm : List Char → Bool)
    (f : List Char → List Char) (inSel : Bool) : DNode → DNode
  | .elem d cs => .elem d (subsForest p rm f (inSel || p (.elem d cs)) cs)
  | .text t => if inSel && rm t then .text (f t) else .text t

/-- `subsNode` over a forest. -/
def subsForest (p : DNode → Bool) (rm : List Char → Bool)
    (f : List Char → List Char) (inSel : Bool) : List DNode → List DNode
  | [] => []
  | c :: cs => subsNode p rm f inSel c :: subsForest p rm f inSel cs

end

/-- `Sed::apply_subs_expensive` (sed.rs 243-290); the missing-regex
`expect("sub needs reg")` is a panic (`none`). -/
def apply_subs_expensive {σ ρ : Type} (selM : σ → DNode → Bool)
    (regM : ρ → List Char → Bool) (rrep : ρ → List Char → List Char → List Char)
    (sed : Sed σ ρ) (doc : HDoc) : Option HDoc :=
  match sed.reg with
  | none => none
  | some (r, _) =>
    match sed.sel with
    | some (sl, _) =>
      some ⟨subsForest (fun n => selM sl n) (fun t => regM r t)
        (fun t => apply_text rrep sed t) false doc.kids⟩
    | none =>
      some ⟨subsForest (fun _ => false) (fun t => regM r t)
        (fun t => apply_text rrep sed t) true doc.kids⟩

/-- `Sed::apply_full_expensive` (sed.rs 229-240): no-op for
non-destructive patterns, dispatch to the delete/substitute helpers
otherwise (the `unreachable!` arm cannot be reached under the
`is_destructive` guard). -/
def apply_full_expensive {σ ρ : Type} (selM : σ → DNode → Bool)
    (regM : ρ → List Char → Bool) (rrep : ρ → List Char → List Char → List Char)
    (sed : Sed σ ρ) (doc : HDoc) : Option HDoc :=
  if sed.is_destructive = false then some doc
  else
    match sed.op with
    | .Delete => apply_deletes_expensive selM regM sed doc
    | .Replace _ => apply_subs_expensive selM regM rrep sed doc
    | _ => none

/-! ## Claim C10 -/

/-- C10: the compiler accepts `d/./` (a `Delete` pattern with a regex but
no selector), and on any document — in particular any document holding a
text node that matches the regex — the whole-document mutator hits the
`self.sel().expect("delete has sel")` panic instead of completing: the
delete path is not total over compiler-accepted `Delete` patterns. -/
theorem C10_delete_regex_only_panics {σ : Type}
    (selP : List Char → Option σ) (selM : σ → DNode → Bool)
    (rrep : Rg → List Char → List Char → List Char) (doc : HDoc)
    (sed : Sed σ Rg)
    (hparse : parse_sed selP regParseC (("d/./").toList) = .ok sed)
    (htext : ∃ t ∈ textsOfList doc.kids, isMatchR [RItem.base RBase.dot] t = true) :
    sed.op = Op.Delete ∧ sed.sel = none ∧ sed.reg.isSome = true
      ∧ apply_full_expensive selM isMatchR rrep sed doc = none := by
  have hsed : sed = ⟨Op.Delete, none, some ([RItem.base RBase.dot], ['.'])⟩ := by
    have : parse_sed selP regParseC (("d/./").toList)
        = .ok (⟨Op.Delete, none, some ([RItem.base RBase.dot], ['.'])⟩ : Sed σ Rg) := rfl
    rw [this] at hparse
    injection hparse with h
    exact h.symm
  subst hsed
  refine ⟨rfl, rfl, rfl, ?_⟩
  rfl

/-- Witness for C10: the concrete document `<x>` (a single text node
`"x"`), whose text matches `.`, makes `apply_full_expensive` panic for
the compiled `d/./`. -/
theorem C10_delete_regex_only_panics_witness :
    (parse_sed (fun _ => some ()) regParseC (("d/./").toList)
        = .ok (⟨Op.Delete, none, some ([RItem.base RBase.dot], ['.'])⟩ : Sed Unit Rg))
    ∧ (∃ t ∈ textsOfList [DNode.text ['x']], isMatchR [RItem.base RBase.dot] t = true)
    ∧ apply_full_expensive (fun (_ : Unit) _ => true) isMatchR
        (fun _ _ s => s) (⟨Op.Delete, none, some ([RItem.base RBase.dot], ['.'])⟩ : Sed Unit Rg)
        ⟨[DNode.text ['x']]⟩ = none := by
  refine ⟨rfl, ⟨['x'], by decide⟩, ?_⟩
  exact (C10_delete_regex_only_panics (fun _ => some ()) (fun _ _ => true)
    (fun _ _ s => s) ⟨[DNode.text ['x']]⟩ _ rfl ⟨['x'], by decide⟩).2.2.2

/-! ## Claim C4 -/

/-- The arena id of a node (only element ids are ever used). -/
def idOf : DNode → Nat
  | .elem d _ => d.id
  | .text _ => 0

mutual

/-- All element nodes of a subtree, in document order. -/
def allElemsNode : DNode → List DNode
  | .elem d cs => .elem d cs :: allElemsList cs
  | .text _ => []

/-- All element nodes of a forest, in document order. -/
def allElemsList : List DNode → List DNode
  | [] => []
  | c :: cs => allElemsNode c ++ allElemsList cs

end

mutual

/-- `collectElemIds` is the id image of the `p`-filtered element list. -/
theorem collect_eq_filter_node (p : DNode → Bool) (n : DNode) :
    collectElemIds p n = ((allElemsNode n).filter p).map idOf := by
  cases n with
  | text t => rfl
  | elem d cs =>
    rw [collectElemIds, allElemsNode, collect_eq_filter_list p cs]
    cases hp : p (.elem d cs) <;> simp [hp, idOf]

/-- `collectElemIdsList` is the id image of the `p`-filtered element
list of the forest. -/
theorem collect_eq_filter_list (p : DNode → Bool) (cs : List DNode) :
    collectElemIdsList p cs = ((allElemsList cs).filter p).map idOf := by
  cases cs with
  | nil => rfl
  | cons c rest =>
    rw [collectElemIdsList, allElemsList, collect_eq_filter_node p c,
      collect_eq_filter_list p rest]
    simp

end

/-- With all element ids distinct, membership of an element id in a
collected id set is exactly the collection predicate at that element. -/
theorem contains_collect (p : DNode → Bool) (roots : List DNode)
    (hnd : ((allElemsList roots).map idOf).Nodup)
    (m : DNode) (hm : m ∈ allElemsList roots) :
    (collectElemIdsList p roots).contains (idOf m) = p m := by
  rw [collect_eq_filter_list]
  have hiff : ((allElemsList roots).filter p |>.map idOf).contains (idOf m) = true
      ↔ idOf m ∈ ((allElemsList roots).filter p |>.map idOf) := List.elem_iff
  cases hp : p m with
  | true =>
    exact hiff.mpr (List.mem_map_of_mem idOf (List.mem_filter.mpr ⟨hm, hp⟩))
  | false =>
    cases hc : ((allElemsList roots).filter p |>.map idOf).contains (idOf m) with
    | false => rfl
    | true =>
      exfalso
      have hmem := hiff.mp hc
      simp only [List.mem_map, List.mem_filter] at hmem
      obtain ⟨m2, ⟨hm2mem, hm2p⟩, hm2id⟩ := hmem
      have heq : m2 = m := List.inj_on_of_nodup_map hnd hm2mem hm hm2id
      rw [heq] at hm2p
      rw [hm2p] at hp
      cases hp

mutual

/-- Id-set pruning equals predicate pruning whenever the id test agrees
with the predicate on every element of the subtree. -/
theorem pruneNode_eq_specNode (del : Nat → Bool) (p : DNode → Bool) (n : DNode)
    (h : ∀ m ∈ allElemsNode n, del (idOf m) = p m) :
    pruneNode del n = specPruneNode p n := by
  cases n with
  | text t => rfl
  | elem d cs =>
    rw [pruneNode, specPruneNode,
      pruneForest_eq_specForest del p cs
        (fun m hm => h m (by rw [allElemsNode]; exact List.mem_cons_of_mem _ hm))]
    have hd : del d.id = p (.elem d cs) :=
      h (.elem d cs) (by rw [allElemsNode]; exact List.mem_cons_self _ _)
    rw [show del d.id = del (idOf (.elem d cs)) from rfl] at hd
    rw [show (d.id : Nat) = idOf (.elem d cs) from rfl, hd]

/-- Forest version of `pruneNode_eq_specNode`. -/
theorem pruneForest_eq_specForest (del : Nat → Bool) (p : DNode → Bool)
    (cs : List DNode) (h : ∀ m ∈ allElemsList cs, del (idOf m) = p m) :
    pruneForest del cs = specPruneForest p cs := by
  cases cs with
  | nil => rfl
  | cons c rest =>
    rw [pruneForest, specPruneForest,
      pruneNode_eq_specNode del p c
        (fun m hm => h m (by rw [allElemsList]; exact List.mem_append_left _ hm)),
      pruneForest_eq_specForest del p rest
        (fun m hm => h m (by rw [allElemsList]; exact List.mem_append_right _ hm))]

end

/-- C4: on a document with distinct element ids, the whole-document
delete with a selector only detaches exactly the selector-matched
elements and keeps every other node unchanged; with a selector and a
regex it detaches exactly the elements that are selector-matched and lie
in the ancestor closure of a regex-matching text node (i.e. have such a
text node strictly below them).  Both sides are stated as one structural
pruning pass, which preserves all surviving nodes. -/
theorem C4_apply_deletes {σ ρ : Type} (selM : σ → DNode → Bool)
    (regM : ρ → List Char → Bool) (sed : Sed σ ρ) (doc : HDoc)
    (hnd : ((allElemsList doc.kids).map idOf).Nodup)
    (hdel : sed.op = Op.Delete) :
    (∀ sl sS, sed.sel = some (sl, sS) → sed.reg = none →
        apply_deletes_expensive selM regM sed doc
          = some ⟨specPruneForest (fun n => selM sl n) doc.kids⟩)
    ∧ (∀ sl sS r rS, sed.sel = some (sl, sS) → sed.reg = some (r, rS) →
        apply_deletes_expensive selM regM sed doc
          = some ⟨specPruneForest
              (fun n => selM sl n && strictTextMatch regM r n) doc.kids⟩) := by
  constructor
  · intro sl sS hsel hreg
    have hpr := pruneForest_eq_specForest
      (fun i => (collectElemIdsList (fun n => selM sl n) doc.kids).contains i)
      (fun n => selM sl n) doc.kids
      (fun m hm => contains_collect _ doc.kids hnd m hm)
    simp only [apply_deletes_expensive, hreg, hsel, hpr]
  · intro sl sS r rS hsel hreg
    have hpr := pruneForest_eq_specForest
      (fun i => (collectElemIdsList (fun n => selM sl n) doc.kids).contains i
        && (collectElemIdsList (strictTextMatch regM r) doc.kids).contains i)
      (fun n => selM sl n && strictTextMatch regM r n) doc.kids
      (fun m hm => by
        simp only [contains_collect (fun n => selM sl n) doc.kids hnd m hm,
          contains_collect (strictTextMatch regM r) doc.kids hnd m hm])
    simp only [apply_deletes_expensive, hreg, hsel, hpr]

/-- Witness for C4: deleting `p` elements from the document
`<p></p><q>x</q>` removes the `p` element and preserves the rest. -/
theorem C4_apply_deletes_witness :
    apply_deletes_expensive
        (fun (_ : Unit) n => match n with
          | .elem d _ => d.name == ("p" : String)
          | .text _ => false)
        (fun (r : Rg) t => isMatchR r t)
        (⟨Op.Delete, some ((), ('p' : Char) :: []), none⟩ : Sed Unit Rg)
        ⟨[DNode.elem ⟨"p", [], 1⟩ [], DNode.elem ⟨"q", [], 2⟩ [DNode.text ['x']]]⟩
      = some ⟨[DNode.elem ⟨"q", [], 2⟩ [DNode.text ['x']]]⟩ := by
  have h := (C4_apply_deletes
    (fun (_ : Unit) n => match n with
      | .elem d _ => d.name == ("p" : String)
      | .text _ => false)
    (fun (r : Rg) t => isMatchR r t)
    (⟨Op.Delete, some ((), ('p' : Char) :: []), none⟩ : Sed Unit Rg)
    ⟨[DNode.elem ⟨"p", [], 1⟩ [], DNode.elem ⟨"q", [], 2⟩ [DNode.text ['x']]]⟩
    (by decide) rfl).1 () (('p' : Char) :: []) rfl rfl
  rw [h]
  rfl

/-! ## The scoped activation walker (`descend`, src/common.rs 110-210)

The `ChapterBuilder` is external; the walker is modelled as producing the
list of builder events it emits (`add_text`, `add_separator`,
`add_image`, `paragraph_finish`).  Span-style bookkeeping mutates no
control flow and addresses no claim, so it is projected away.  The node
kinds other than `Element`/`Text` (document, fragment, doctype, comment,
processing instruction) emit nothing and recurse nowhere in the source;
the embedded tree type has no constructors for them.  The three engine
callbacks are bundled in `Eng`. -/

/-- The external engines used by the walker: selector match, regex text
match, regex replace-all. -/
structure Eng (σ ρ : Type) where
  selM : σ → DNode → Bool
  regM : ρ → List Char → Bool
  rrep : ρ → List Char → List Char → List Char

/-- Builder events. -/
inductive Ev where
  | txt : List Char → Ev
  | sep : Ev
  | img : List Char → Option String → Ev
  | pfin : Ev
deriving DecidableEq, Repr

/-- `src.split_once('?').map_or(src, |(base, _query)| base)`. -/
def imgSrc (src : String) : List Char :=
  src.toList.takeWhile (fun c => c ≠ '?')

/-- The text-node fold: every currently-active pattern
(`levels[i] != 0`), in pattern order, applied via `apply_text`. -/
def foldText {σ ρ : Type} (E : Eng σ ρ) (seds : List (Sed σ ρ))
    (enabled : List Nat) (t : List Char) : List Char :=
  ((seds.zip enabled).filter (fun p => p.2 != 0)).foldl
    (fun acc p => apply_text E.rrep p.1 acc) t

/-- The per-element activation loop (`for (r, e) in
overrides.replacers().zip(&mut *enabled)`): entries with `e != 0` are
skipped; an inactive matching pattern activates at `level`, unless it is
a `Delete`, in which case the loop stops with the abandon flag set and
the rest of the array untouched. -/
def activateGo {σ ρ : Type} (E : Eng σ ρ) (el : DNode) (level : Nat) :
    List (Sed σ ρ) → List Nat → Bool × List Nat
  | [], es => (false, es)
  | _ :: _, [] => (false, [])
  | r :: rs, e :: es =>
    if e ≠ 0 then
      let (d, es2) := activateGo E el level rs es
      (d, e :: es2)
    else if is_el_match E.selM E.regM r el then
      if r.is_del then (true, e :: es)
      else
        let (d, es2) := activateGo E el level rs es
        (d, level :: es2)
    else
      let (d, es2) := activateGo E el level rs es
      (d, e :: es2)

/-- `for e in enabled { if *e == level { *e = 0 } }`. -/
def resetLvl (level : Nat) (es : List Nat) : List Nat :=
  es.map (fun e => if e = level then 0 else e)

/-- The whole activation step of the element arm: run the loop; on a
`Delete` match reset every entry activated at this level (the source
resets before its early `return`). -/
def runActivate {σ ρ : Type} (E : Eng σ ρ) (seds : List (Sed σ ρ))
    (el : DNode) (level : Nat) (enabled : List Nat) : Bool × List Nat :=
  match activateGo E el level seds enabled with
  | (true, es) => (true, resetLvl level es)
  | (false, es) => (false, es)

mutual

/-- `fn descend` (common.rs 110-210), returning the emitted events and
the final `enabled` array.  On a text node: emit the folded text.  On an
element: run the activation loop (abandoning the subtree on a `Delete`
match), dispatch on the tag name exactly as the source does — `hr` emits
a separator, `br` emits a literal newline text, `ol`/`ul`/`li` and
`script` emit nothing and do not recurse, `img` emits an image event or,
when it has no `src` attribute, returns early *without* running the
disable loop — and otherwise recurse into the children one level deeper,
emitting `paragraph_finish` after a `p`; finally reset every entry
activated at this level. -/
def descend {σ ρ : Type} (E : Eng σ ρ) (seds : List (Sed σ ρ)) (el : DNode)
    (enabled : List Nat) (level : Nat) : List Ev × List Nat :=
  match el with
  | .text txt => ([Ev.txt (foldText E seds enabled txt)], enabled)
  | .elem e cs =>
    match runActivate E seds (DNode.elem e cs) level enabled with
    | (true, en2) => ([], en2)
    | (false, en1) =>
      if e.name = "hr" then ([Ev.sep], resetLvl level en1)
      else if e.name = "br" then ([Ev.txt [Char.ofNat 10]], resetLvl level en1)
      else if e.name = "ol" ∨ e.name = "ul" ∨ e.name = "li" then
        ([], resetLvl level en1)
      else if e.name = "img" then
        match attrOf e "src" with
        | none => ([], en1)
        | some src => ([Ev.img (imgSrc src) (attrOf e "alt")], resetLvl level en1)
      else if e.name = "script" then ([], resetLvl level en1)
      else
        let (evs, en2) := descendList E seds cs en1 (level + 1)
        (evs ++ (if e.name = "p" then [Ev.pfin] else []), resetLvl level en2)

/-- `for child in el.children() { descend(..) }`. -/
def descendList {σ ρ : Type} (E : Eng σ ρ) (seds : List (Sed σ ρ))
    (cs : List DNode) (enabled : List Nat) (level : Nat) : List Ev × List Nat :=
  match cs with
  | [] => ([], enabled)
  | c :: rest =>
    let (evs1, en1) := descend E seds c enabled level
    let (evs2, en2) := descendList E seds rest en1 level
    (evs1 ++ evs2, en2)

end

/-- `pub fn add_basic` (common.rs 98-106): fresh all-zero levels, root
call at depth 1. -/
def add_basic {σ ρ : Type} (E : Eng σ ρ) (seds : List (Sed σ ρ))
    (el : DNode) : List Ev :=
  (descend E seds el (seds.map (fun _ => 0)) 1).1

/-! ### The specification walker

The same walk with the activation state carried as an explicit Boolean
set, scoped functionally: a pattern activated at an element is active for
that element's own processing and its descendants, and nothing else.
This is the formal reading of the claim "patterns currently active =
activated at an ancestor-or-self element and not yet deactivated". -/

/-- Specification activation: activate every inactive matching
non-delete pattern; `none` when an inactive `Delete` pattern matches
(abandon). -/
def specActGo {σ ρ : Type} (E : Eng σ ρ) (el : DNode) :
    List (Sed σ ρ) → List Bool → Option (List Bool)
  | [], bs => some bs
  | _ :: _, [] => some []
  | r :: rs, b :: bs =>
    if b then (specActGo E el rs bs).map (b :: ·)
    else if is_el_match E.selM E.regM r el then
      if r.is_del then none
      else (specActGo E el rs bs).map (true :: ·)
    else (specActGo E el rs bs).map (b :: ·)

/-- Specification text fold: active patterns in pattern order. -/
def specFoldText {σ ρ : Type} (E : Eng σ ρ) (seds : List (Sed σ ρ))
    (act : List Bool) (t : List Char) : List Char :=
  ((seds.zip act).filter (fun p => p.2)).foldl
    (fun acc p => apply_text E.rrep p.1 acc) t

mutual

/-- Specification walker: Boolean activation set, functional scoping. -/
def specDescend {σ ρ : Type} (E : Eng σ ρ) (seds : List (Sed σ ρ))
    (el : DNode) (act : List Bool) : List Ev :=
  match el with
  | .text txt => [Ev.txt (specFoldText E seds act txt)]
  | .elem e cs =>
    match specActGo E (DNode.elem e cs) seds act with
    | none => []
    | some act2 =>
      if e.name = "hr" then [Ev.sep]
      else if e.name = "br" then [Ev.txt [Char.ofNat 10]]
      else if e.name = "ol" ∨ e.name = "ul" ∨ e.name = "li" then []
      else if e.name = "img" then
        match attrOf e "src" with
        | none => []
        | some src => [Ev.img (imgSrc src) (attrOf e "alt")]
      else if e.name = "script" then []
      else specDescendList E seds cs act2
        ++ (if e.name = "p" then [Ev.pfin] else [])

/-- `specDescend` over children. -/
def specDescendList {σ ρ : Type} (E : Eng σ ρ) (seds : List (Sed σ ρ))
    (cs : List DNode) (act : List Bool) : List Ev :=
  match cs with
  | [] => []
  | c :: rest => specDescend E seds c act ++ specDescendList E seds rest act

end

mutual

/-- Every `img` element in the subtree carries a `src` attribute. -/
def imgOkNode : DNode → Bool
  | .elem d cs =>
    (if d.name = "img" then (attrOf d "src").isSome else true) && imgOkList cs
  | .text _ => true

/-- `imgOkNode` over a forest. -/
def imgOkList : List DNode → Bool
  | [] => true
  | c :: cs => imgOkNode c && imgOkList cs

end

/-! ### Correspondence between the level-tagged walker and the
specification walker -/

/-- Resetting a level touches nothing when every entry is below it. -/
theorem resetLvl_of_lt (level : Nat) (es : List Nat)
    (h : ∀ e ∈ es, e < level) : resetLvl level es = es := by
  induction es with
  | nil => rfl
  | cons e rest ih =>
    have he : e ≠ level := Nat.ne_of_lt (h e (List.mem_cons_self _ _))
    simp only [resetLvl, List.map_cons, if_neg he]
    have := ih (fun x hx => h x (List.mem_cons_of_mem _ hx))
    simp only [resetLvl] at this
    rw [this]

/-- Abandon flag of the activation loop: whether an inactive `Delete`
pattern is reached whose `is_el_match` holds (the loop then early
returns). -/
def actFlag {σ ρ : Type} (E : Eng σ ρ) (el : DNode) :
    List (Sed σ ρ) → List Nat → Bool
  | [], _ => false
  | _ :: _, [] => false
  | r :: rs, e :: es =>
    if e ≠ 0 then actFlag E el rs es
    else if is_el_match E.selM E.regM r el then
      (if r.is_del then true else actFlag E el rs es)
    else actFlag E el rs es

/-- Array produced by the activation loop (before any reset): entries
stay, inactive matching non-delete patterns become `level`, and the loop
stops at the first inactive matching delete. -/
def actArr {σ ρ : Type} (E : Eng σ ρ) (el : DNode) (level : Nat) :
    List (Sed σ ρ) → List Nat → List Nat
  | [], es => es
  | _ :: _, [] => []
  | r :: rs, e :: es =>
    if e ≠ 0 then e :: actArr E el level rs es
    else if is_el_match E.selM E.regM r el then
      (if r.is_del then e :: es else level :: actArr E el level rs es)
    else e :: actArr E el level rs es

/-- The single-pass loop is the pair of its flag and array views. -/
theorem activateGo_eq {σ ρ : Type} (E : Eng σ ρ) (el : DNode) (level : Nat) :
    ∀ (sl : List (Sed σ ρ)) (en : List Nat),
      activateGo E el level sl en = (actFlag E el sl en, actArr E el level sl en) := by
  intro sl
  induction sl with
  | nil => intro en; rfl
  | cons r rs ih =>
    intro en
    cases en with
    | nil => rfl
    | cons e es =>
      by_cases he : e = 0
      · subst he
        by_cases hm : is_el_match E.selM E.regM r el = true
        · by_cases hd : r.is_del = true
          · simp [activateGo, actFlag, actArr, hm, hd]
          · simp [activateGo, actFlag, actArr, hm, hd, ih es]
        · simp [activateGo, actFlag, actArr, hm, ih es]
      · simp [activateGo, actFlag, actArr, he, ih es]

/-- When the loop abandons, the specification activation abandons too. -/
theorem specActGo_none_of_flag {σ ρ : Type} (E : Eng σ ρ) (el : DNode) :
    ∀ (sl : List (Sed σ ρ)) (en : List Nat),
      actFlag E el sl en = true →
      specActGo E el sl (en.map (fun e => e != 0)) = none := by
  intro sl
  induction sl with
  | nil => intro en h; cases h
  | cons r rs ih =>
    intro en h
    cases en with
    | nil => cases h
    | cons e es =>
      by_cases he : e = 0
      · subst he
        by_cases hm : is_el_match E.selM E.regM r el = true
        · by_cases hd : r.is_del = true
          · simp [specActGo, hm, hd]
          · simp only [actFlag, if_neg (by omega : ¬(0 : Nat) ≠ 0), if_pos hm,
              if_neg hd] at h
            simp [specActGo, hm, hd, ih es h]
        · simp only [actFlag, if_neg (by omega : ¬(0 : Nat) ≠ 0),
            if_neg hm] at h
          simp [specActGo, hm, ih es h]
      · simp only [actFlag, if_pos he] at h
        simp [specActGo, (by simpa using he : (e != 0) = true), ih es h]

/-- When the loop completes, the specification activation returns
exactly the Boolean projection of the produced array. -/
theorem specActGo_some_of_flag {σ ρ : Type} (E : Eng σ ρ) (el : DNode)
    (level : Nat) :
    ∀ (sl : List (Sed σ ρ)) (en : List Nat), (∀ e ∈ en, e < level) →
      actFlag E el sl en = false →
      specActGo E el sl (en.map (fun e => e != 0))
        = some ((actArr E el level sl en).map (fun e => e != 0)) := by
  intro sl
  induction sl with
  | nil => intro en _ _; rfl
  | cons r rs ih =>
    intro en hlt h
    cases en with
    | nil => rfl
    | cons e es =>
      have hes : ∀ x ∈ es, x < level := fun x hx => hlt x (List.mem_cons_of_mem _ hx)
      by_cases he : e = 0
      · subst he
        have hl0 : level ≠ 0 := by
          have := hlt 0 (List.mem_cons_self _ _); omega
        by_cases hm : is_el_match E.selM E.regM r el = true
        · by_cases hd : r.is_del = true
          · simp only [actFlag, if_neg (by omega : ¬(0 : Nat) ≠ 0), if_pos hm,
              if_pos hd] at h
            cases h
          · simp only [actFlag, if_neg (by omega : ¬(0 : Nat) ≠ 0), if_pos hm,
              if_neg hd] at h
            simp [specActGo, actArr, hm, hd, ih es hes h, hl0]
        · simp only [actFlag, if_neg (by omega : ¬(0 : Nat) ≠ 0),
            if_neg hm] at h
          simp [specActGo, actArr, hm, ih es hes h]
      · simp only [actFlag, if_pos he] at h
        simp [specActGo, actArr, he, (by simpa using he : (e != 0) = true),
          ih es hes h]

/-- Entries of the activation-loop output never exceed `level`. -/
theorem actArr_le {σ ρ : Type} (E : Eng σ ρ) (el : DNode) (level : Nat) :
    ∀ (sl : List (Sed σ ρ)) (en : List Nat), (∀ e ∈ en, e < level) →
      ∀ x ∈ actArr E el level sl en, x ≤ level := by
  intro sl
  induction sl with
  | nil => intro en hlt x hx; exact Nat.le_of_lt (hlt x hx)
  | cons r rs ih =>
    intro en hlt x hx
    cases en with
    | nil => cases hx
    | cons e es =>
      have hes : ∀ y ∈ es, y < level := fun y hy => hlt y (List.mem_cons_of_mem _ hy)
      by_cases he : e = 0
      · subst he
        by_cases hm : is_el_match E.selM E.regM r el = true
        · by_cases hd : r.is_del = true
          · simp only [actArr, if_neg (by omega : ¬(0 : Nat) ≠ 0), if_pos hm,
              if_pos hd] at hx
            exact Nat.le_of_lt (hlt x hx)
          · simp only [actArr, if_neg (by omega : ¬(0 : Nat) ≠ 0), if_pos hm,
              if_neg hd, List.mem_cons] at hx
            rcases hx with h | h
            · omega
            · exact ih es hes x h
        · simp only [actArr, if_neg (by omega : ¬(0 : Nat) ≠ 0), if_neg hm,
            List.mem_cons] at hx
          rcases hx with h | h
          · subst h; exact Nat.le_of_lt (hlt _ (List.mem_cons_self _ _))
          · exact ih es hes x h
      · simp only [actArr, if_pos he, List.mem_cons] at hx
        rcases hx with h | h
        · subst h; exact Nat.le_of_lt (hlt _ (List.mem_cons_self _ _))
        · exact ih es hes x h

/-- Resetting `level` on the activation-loop output restores the input
array (new activations carry `level` and were `0`; old entries are below
`level`). -/
theorem resetLvl_actArr {σ ρ : Type} (E : Eng σ ρ) (el : DNode) (level : Nat) :
    ∀ (sl : List (Sed σ ρ)) (en : List Nat), (∀ e ∈ en, e < level) →
      resetLvl level (actArr E el level sl en) = en := by
  intro sl
  induction sl with
  | nil => intro en hlt; exact resetLvl_of_lt level en hlt
  | cons r rs ih =>
    intro en hlt
    cases en with
    | nil => rfl
    | cons e es =>
      have hes : ∀ y ∈ es, y < level := fun y hy => hlt y (List.mem_cons_of_mem _ hy)
      have hne : e ≠ level := Nat.ne_of_lt (hlt e (List.mem_cons_self _ _))
      by_cases he : e = 0
      · subst he
        by_cases hm : is_el_match E.selM E.regM r el = true
        · by_cases hd : r.is_del = true
          · simp only [actArr, if_neg (by omega : ¬(0 : Nat) ≠ 0), if_pos hm,
              if_pos hd]
            exact resetLvl_of_lt level _ hlt
          · have := ih es hes
            simp only [resetLvl] at this
            simp [actArr, hm, hd, resetLvl, this]
        · have := ih es hes
          simp only [resetLvl] at this
          simp [actArr, hm, resetLvl, this, hne]
      · have := ih es hes
        simp only [resetLvl] at this
        simp [actArr, he, resetLvl, this, hne]

/-- The abandon flag holds exactly when some pattern that is inactive in
the zipped state is a matching `Delete`. -/
theorem actFlag_iff {σ ρ : Type} (E : Eng σ ρ) (el : DNode) :
    ∀ (sl : List (Sed σ ρ)) (en : List Nat),
      (actFlag E el sl en = true
        ↔ ∃ p ∈ sl.zip en, p.2 = 0 ∧ is_el_match E.selM E.regM p.1 el = true
            ∧ p.1.is_del = true) := by
  intro sl
  induction sl with
  | nil => intro en; simp [actFlag]
  | cons r rs ih =>
    intro en
    cases en with
    | nil => simp [actFlag]
    | cons e es =>
      by_cases he : e = 0
      · subst he
        by_cases hm : is_el_match E.selM E.regM r el = true
        · by_cases hd : r.is_del = true
          · simp only [actFlag, if_neg (by omega : ¬(0 : Nat) ≠ 0), if_pos hm,
              if_pos hd, true_iff]
            exact ⟨(r, 0), List.mem_cons_self _ _, rfl, hm, hd⟩
          · simp only [actFlag, if_neg (by omega : ¬(0 : Nat) ≠ 0), if_pos hm,
              if_neg hd, ih es, List.zip_cons_cons, List.mem_cons]
            constructor
            · rintro ⟨p, hp, h0, hmm, hdd⟩
              exact ⟨p, Or.inr hp, h0, hmm, hdd⟩
            · rintro ⟨p, hp | hp, h0, hmm, hdd⟩
              · rw [hp] at hdd; exact absurd hdd hd
              · exact ⟨p, hp, h0, hmm, hdd⟩
        · simp only [actFlag, if_neg (by omega : ¬(0 : Nat) ≠ 0), if_neg hm,
            ih es, List.zip_cons_cons, List.mem_cons]
          constructor
          · rintro ⟨p, hp, h0, hmm, hdd⟩
            exact ⟨p, Or.inr hp, h0, hmm, hdd⟩
          · rintro ⟨p, hp | hp, h0, hmm, hdd⟩
            · rw [hp] at hmm; exact absurd hmm hm
            · exact ⟨p, hp, h0, hmm, hdd⟩
      · simp only [actFlag, if_pos he, ih es, List.zip_cons_cons, List.mem_cons]
        constructor
        · rintro ⟨p, hp, h0, hmm, hdd⟩
          exact ⟨p, Or.inr hp, h0, hmm, hdd⟩
        · rintro ⟨p, hp | hp, h0, hmm, hdd⟩
          · rw [hp] at h0; exact absurd h0 he
          · exact ⟨p, hp, h0, hmm, hdd⟩

/-- The text-node fold agrees with the specification fold on the
Boolean projection of the levels array. -/
theorem foldText_eq_spec {σ ρ : Type} (E : Eng σ ρ) (seds : List (Sed σ ρ))
    (en : List Nat) (t : List Char) :
    foldText E seds en t
      = specFoldText E seds (en.map (fun e => e != 0)) t := by
  unfold foldText specFoldText
  rw [List.zip_map_right, List.filter_map, List.foldl_map]
  have hfil : List.filter ((fun p => p.2) ∘ Prod.map id fun e => e != 0)
        (seds.zip en)
      = List.filter (fun p => p.2 != 0) (seds.zip en) := by
    apply List.filter_congr
    intro p hp
    cases p
    rfl
  rw [hfil]
  simp [Prod.map_fst]


mutual

/-- The level-tagged walker refines the specification walker: on any
subtree whose `img` elements carry `src`, and from any levels array
bounded by the current depth, it emits exactly the specification events
for the Boolean projection of the array, and it restores the array. -/
theorem descend_eq_specDescend {σ ρ : Type} (E : Eng σ ρ)
    (seds : List (Sed σ ρ)) (el : DNode) :
    ∀ (enabled : List Nat) (level : Nat), (∀ e ∈ enabled, e < level) →
      imgOkNode el = true →
      descend E seds el enabled level
        = (specDescend E seds el (enabled.map (fun e => e != 0)), enabled) := by
  cases el with
  | text t =>
    intro enabled level hlt himg
    simp [descend, specDescend, foldText_eq_spec]
  | elem e cs =>
    intro enabled level hlt himg
    have himgcs : imgOkList cs = true := by
      simp only [imgOkNode, Bool.and_eq_true] at himg
      exact himg.2
    simp only [descend, specDescend, runActivate, activateGo_eq]
    cases hflag : actFlag E (DNode.elem e cs) seds enabled with
    | true =>
      rw [specActGo_none_of_flag E (DNode.elem e cs) seds enabled hflag]
      simp only [resetLvl_actArr E (DNode.elem e cs) level seds enabled hlt]
    | false =>
      rw [specActGo_some_of_flag E (DNode.elem e cs) level seds enabled hlt hflag]
      have hreset := resetLvl_actArr E (DNode.elem e cs) level seds enabled hlt
      have hle := actArr_le E (DNode.elem e cs) level seds enabled hlt
      by_cases h1 : e.name = "hr"
      · simp [h1, hreset]
      by_cases h2 : e.name = "br"
      · simp [h1, h2, hreset]
      by_cases h3 : e.name = "ol" ∨ e.name = "ul" ∨ e.name = "li"
      · simp [h1, h2, h3, hreset]
      by_cases h4 : e.name = "img"
      · cases hsrc : attrOf e "src" with
        | none =>
          exfalso
          simp only [imgOkNode, Bool.and_eq_true] at himg
          rw [if_pos h4, hsrc] at himg
          simp at himg
        | some src => simp [h1, h2, h3, h4, hsrc, hreset]
      by_cases h5 : e.name = "script"
      · simp [h1, h2, h3, h4, h5, hreset]
      · have hcs := descendList_eq_specDescendList E seds cs
          (actArr E (DNode.elem e cs) level seds enabled) (level + 1)
          (fun x hx => Nat.lt_succ_of_le (hle x hx)) himgcs
        simp [h1, h2, h3, h4, h5, hcs, hreset]

/-- Forest version of `descend_eq_specDescend`. -/
theorem descendList_eq_specDescendList {σ ρ : Type} (E : Eng σ ρ)
    (seds : List (Sed σ ρ)) (cs : List DNode) :
    ∀ (enabled : List Nat) (level : Nat), (∀ e ∈ enabled, e < level) →
      imgOkList cs = true →
      descendList E seds cs enabled level
        = (specDescendList E seds cs (enabled.map (fun e => e != 0)), enabled) := by
  cases cs with
  | nil =>
    intro enabled level hlt himg
    simp [descendList, specDescendList]
  | cons c rest =>
    intro enabled level hlt himg
    simp only [imgOkList, Bool.and_eq_true] at himg
    have hc := descend_eq_specDescend E seds c enabled level hlt himg.1
    have hrest := descendList_eq_specDescendList E seds rest enabled level hlt himg.2
    simp [descendList, specDescendList, hc, hrest]

end

/-! ## Claim C3 -/

/-- A concrete engine instance for the walker claims: selectors are tag
names matched by equality, regexes and replacement from the concrete
engine. -/
def engTag : Eng String Rg :=
  ⟨fun s n => match n with
    | .elem d _ => d.name == s
    | .text _ => false,
   fun r t => isMatchR r t,
   fun r rep s => replaceAllR r rep s⟩

/-- The pattern `s;img/x/y/`: substitute `y` for `x` inside `img`
elements. -/
def sedImgRepl : Sed String Rg :=
  ⟨Op.Replace ['y'], some ("img", ("img").toList),
   some ([RItem.base (RBase.lit 'x')], ['x'])⟩

/-- `<div><img>x</img>x</div>` — an `img` element without a `src`
attribute, followed by a sibling text node. -/
def cexTree : DNode :=
  .elem ⟨"div", [], 0⟩
    [.elem ⟨"img", [], 1⟩ [.text ['x']], .text ['x']]

/-- Counterexample to C3 as stated: on a tree containing an `img`
element with no `src` attribute, the walker's early return skips the
deactivation loop, so a pattern activated on the `img` leaks onto the
following sibling text node — the emitted text (`y`) is not the fold of
the patterns activated at an ancestor-or-self element (which would leave
`x` unchanged), and the levels array is not restored. -/
theorem C3_scoped_activation_counterexample :
    descend engTag [sedImgRepl] cexTree [0] 1
      ≠ (specDescend engTag [sedImgRepl] cexTree [false], [0]) := by
  decide

/-- C3 (amended: on trees whose `img` elements all carry a `src`
attribute — an `img` without one returns early without deactivating
patterns activated on it).  (1) If a `Delete` pattern that is inactive
matches an element, the walker emits nothing for the whole subtree and
returns the levels array unchanged (activations made at this depth are
reset).  (2) Otherwise the walker emits exactly the events of the
specification walker, in which a pattern is active for a text node
precisely when it was activated at an ancestor-or-self element of it and
its scope has not ended — so a non-delete substitution applies within
the subtree where the pattern first matched and not to sibling or
ancestor text outside it — and the walker restores the levels array.
(3) On a text node the emission is the original text folded, in pattern
order, through `apply_text` of exactly the currently-active patterns. -/
theorem C3_scoped_activation {σ ρ : Type} (E : Eng σ ρ)
    (seds : List (Sed σ ρ)) :
    (∀ (d : ElemData) (cs : List DNode) (enabled : List Nat) (level : Nat),
        (∀ e ∈ enabled, e < level) →
        (∃ p ∈ seds.zip enabled, p.2 = 0
            ∧ is_el_match E.selM E.regM p.1 (DNode.elem d cs) = true
            ∧ p.1.is_del = true) →
        descend E seds (DNode.elem d cs) enabled level = ([], enabled))
    ∧ (∀ (el : DNode) (enabled : List Nat) (level : Nat),
        (∀ e ∈ enabled, e < level) → imgOkNode el = true →
        descend E seds el enabled level
          = (specDescend E seds el (enabled.map (fun e => e != 0)), enabled))
    ∧ (∀ (t : List Char) (act : List Bool),
        specDescend E seds (DNode.text t) act
          = [Ev.txt (((seds.zip act).filter (fun p => p.2)).foldl
              (fun acc p => apply_text E.rrep p.1 acc) t)]) := by
  refine ⟨?_, ?_, ?_⟩
  · intro d cs enabled level hlt hex
    have hflag : actFlag E (DNode.elem d cs) seds enabled = true :=
      (actFlag_iff E (DNode.elem d cs) seds enabled).mpr hex
    simp only [descend, runActivate, activateGo_eq, hflag,
      resetLvl_actArr E (DNode.elem d cs) level seds enabled hlt]
  · exact fun el enabled level hlt himg =>
      descend_eq_specDescend E seds el enabled level hlt himg
  · intro t act
    rfl

/-- Witness for C3 (amended): the `s;span/x/y/` substitution on
`<div><span>x</span>x</div>` — the span text is rewritten, the sibling
text outside the span subtree is not, and the levels array returns to
all-zero. -/
theorem C3_scoped_activation_witness :
    descend engTag
        [⟨Op.Replace ['y'], some ("span", ("span").toList),
          some ([RItem.base (RBase.lit 'x')], ['x'])⟩]
        (.elem ⟨"div", [], 0⟩
          [.elem ⟨"span", [], 1⟩ [.text ['x']], .text ['x']])
        [0] 1
      = (specDescend engTag
          [⟨Op.Replace ['y'], some ("span", ("span").toList),
            some ([RItem.base (RBase.lit 'x')], ['x'])⟩]
          (.elem ⟨"div", [], 0⟩
            [.elem ⟨"span", [], 1⟩ [.text ['x']], .text ['x']])
          ([0].map (fun e => e != 0)), [0])
    ∧ specDescend engTag
        [⟨Op.Replace ['y'], some ("span", ("span").toList),
          some ([RItem.base (RBase.lit 'x')], ['x'])⟩]
        (.elem ⟨"div", [], 0⟩
          [.elem ⟨"span", [], 1⟩ [.text ['x']], .text ['x']])
        [false]
      = [Ev.txt ['y'], Ev.txt ['x']] :=
  ⟨(C3_scoped_activation engTag
      [⟨Op.Replace ['y'], some ("span", ("span").toList),
        some ([RItem.base (RBase.lit 'x')], ['x'])⟩]).2.1
    (.elem ⟨"div", [], 0⟩
      [.elem ⟨"span", [], 1⟩ [.text ['x']], .text ['x']])
    [0] 1 (by decide) (by decide), by decide⟩

/-! ## The override lifecycle tracker (src/overrides.rs)

URLs are strings.  `HashMap<Box<str>, Vec<OverrideChoice>>` is modelled
as an association list with distinct keys, iterated in insertion order
(this fixes the — state-determined but unspecified — iteration order of
the hash map; no claim depends on the order across *different* keys).
The shared pattern group `Rc<[Sed]>` is an abstract type `G`.  Every
tracker entry additionally carries a ghost identity `id : Nat`, used
only to state lifecycle claims about one entry; it does not influence
any computation. -/

/-- `def::UrlSelection`. -/
inductive UrlSel where
  | range : String → String → UrlSel
  | single : String → UrlSel
  | list : List String → UrlSel
deriving DecidableEq, Repr

/-- The tracker-internal `OverrideChoice` of overrides.rs (with the
ghost `id`). -/
structure Entry (G : Type) where
  id : Nat
  urls : UrlSel
  title : Option String
  subs : G
deriving DecidableEq, Repr

/-- The authoring-time `def::OverrideChoice`: a url selection, an
optional title and a pattern group.  (Its declaration lives outside the
provided sources; the field shape is the one `OverrideTracker::new`
consumes and the spec documents.) -/
structure OvChoice (G : Type) where
  urls : UrlSel
  title : Option String
  subs : G
deriving DecidableEq, Repr

/-- `OverrideSet`: pattern groups (with the ghost contributor ids) and
the title override. -/
structure OSet (G : Type) where
  seds : List (Nat × G)
  title : Option String
deriving DecidableEq, Repr

/-- `OverrideSet::replacers`: the groups flattened, group order first,
rule order within a group. -/
def OSet.replacers {P : Type} (os : OSet (List P)) : List P :=
  (os.seds.map Prod.snd).flatten

/-- `OverrideTracker`: `active` and `unactivated`, keyed by URL. -/
structure Tracker (G : Type) where
  active : List (String × List (Entry G))
  unactivated : List (String × List (Entry G))
deriving DecidableEq, Repr

/-- Hash-map lookup. -/
def alGet {α : Type} (m : List (String × α)) (k : String) : Option α :=
  (m.find? (fun kv => kv.1 == k)).map (fun kv => kv.2)

/-- `HashMap::remove`: the removed value (if any) and the remaining
map. -/
def alRemove {α : Type} (m : List (String × α)) (k : String) :
    Option α × List (String × α) :=
  match m with
  | [] => (none, [])
  | kv :: rest =>
    if kv.1 = k then (some kv.2, rest)
    else
      let r := alRemove rest k
      (r.1, kv :: r.2)

/-- `map.entry(k).or_default().push(e)`. -/
def alPush {G : Type} (m : List (String × List (Entry G))) (k : String)
    (e : Entry G) : List (String × List (Entry G)) :=
  match m with
  | [] => [(k, [e])]
  | kv :: rest =>
    if kv.1 = k then (kv.1, kv.2 ++ [e]) :: rest
    else kv :: alPush rest k e

/-- The key under which an entry deactivates: a `Single`'s own URL, a
`Range`'s `end`.  (`List` entries never reach the tracker maps; the
source marks that arm `unreachable!`.) -/
def deactKey {G : Type} (e : Entry G) : String :=
  match e.urls with
  | .single u => u
  | .range _ en => en
  | .list _ => ""

/-- `OverrideTracker::new` (overrides.rs 64-110): `Range` entries go to
`unactivated` keyed by their start with their title dropped
(`title: None` in the source); `Url` entries keyed by their URL with the
title kept; `List` entries are deduplicated (`HashSet::from_iter`,
modelled keeping first occurrences) and fanned out into one
`Single`-equivalent entry per URL sharing the group.  Ghost ids are
assigned sequentially. -/
def mkTrackerGo {G : Type} : List (OvChoice G) → Nat →
    List (String × List (Entry G)) → List (String × List (Entry G))
  | [], _, m => m
  | c :: cs, n, m =>
    match c.urls with
    | .range s en =>
      mkTrackerGo cs (n + 1) (alPush m s ⟨n, .range s en, none, c.subs⟩)
    | .single u =>
      mkTrackerGo cs (n + 1) (alPush m u ⟨n, .single u, c.title, c.subs⟩)
    | .list us =>
      let dedup := us.eraseDups
      mkTrackerGo cs (n + dedup.length)
        ((dedup.enum.foldl
          (fun m2 p => alPush m2 p.2 ⟨n + p.1, .single p.2, c.title, c.subs⟩) m))

/-- `OverrideTracker::new`. -/
def mkTracker {G : Type} (choices : List (OvChoice G)) : Tracker G :=
  ⟨[], mkTrackerGo choices 0 []⟩

/-- The title fold of the removal loop: the last removed entry carrying
a title wins. -/
def lastTitle {G : Type} (es : List (Entry G)) : Option String :=
  es.foldl (fun acc e => if e.title.isSome then e.title else acc) none

/-- Step 1 of `with_url`: `self.unactivated.remove(url)` — the moved
entries. -/
def movedEntries {G : Type} (t : Tracker G) (u : String) :
    Option (List (Entry G)) :=
  (alRemove t.unactivated u).1

/-- The pending map after step 1. -/
def pendAfter {G : Type} (t : Tracker G) (u : String) :
    List (String × List (Entry G)) :=
  (alRemove t.unactivated u).2

/-- The active map after step 1: every moved entry pushed under its
deactivation key. -/
def activeAfterMove {G : Type} (t : Tracker G) (u : String) :
    List (String × List (Entry G)) :=
  match movedEntries t u with
  | none => t.active
  | some es => es.foldl (fun m e => alPush m (deactKey e) e) t.active

/-- Step 2: `self.active.remove(url)` — the entries ending at this
page. -/
def endingEntries {G : Type} (t : Tracker G) (u : String) :
    Option (List (Entry G)) :=
  (alRemove (activeAfterMove t u) u).1

/-- The active map after step 2. -/
def activeAfter {G : Type} (t : Tracker G) (u : String) :
    List (String × List (Entry G)) :=
  (alRemove (activeAfterMove t u) u).2

/-- `OverrideTracker::with_url` (overrides.rs 112-155): move every
pending entry keyed by `url` into `active` under its deactivation key;
remove every active entry keyed by `url`, collecting their groups and
titles (last title wins); then add the groups of every remaining active
`Range`.  Returns the `OverrideSet` and the successor tracker state.
(The source panics on a `Single` remaining in `active` — provably
unreachable from well-formed states — modelled by contributing
nothing.) -/
def with_url {G : Type} (t : Tracker G) (u : String) :
    OSet G × Tracker G :=
  let os1 : OSet G := match endingEntries t u with
    | none => ⟨[], none⟩
    | some es =>
      es.foldl (fun os e =>
        ⟨os.seds ++ [(e.id, e.subs)],
         if e.title.isSome then e.title else os.title⟩) ⟨[], none⟩
  let os2 := (activeAfter t u).foldl (fun os kv =>
      kv.2.foldl (fun os e =>
        match e.urls with
        | .range _ _ => ⟨os.seds ++ [(e.id, e.subs)], os.title⟩
        | _ => os) os) os1
  (os2, ⟨activeAfter t u, pendAfter t u⟩)

/-- Outputs of a sequence of `with_url` calls from a state. -/
def runOuts {G : Type} (t : Tracker G) : List String → List (OSet G)
  | [] => []
  | u :: rest => (with_url t u).1 :: runOuts (with_url t u).2 rest

/-- Entry `i` contributes its group to an `OverrideSet`. -/
def contributes {G : Type} (i : Nat) (os : OSet G) : Prop :=
  i ∈ os.seds.map Prod.fst

instance {G : Type} (i : Nat) (os : OSet G) : Decidable (contributes i os) :=
  inferInstanceAs (Decidable (i ∈ os.seds.map Prod.fst))

/-- First index of a URL in the advance sequence. -/
def firstIdx (A : String) : List String → Option Nat
  | [] => none
  | u :: rest => if u = A then some 0 else (firstIdx A rest).map (· + 1)

/-! ## Claim C9 -/

/-- C9: iterating an `OverrideSet` yields the flat concatenation of its
pattern groups — group order first, rule order within a group (stated
both as the flatten of the group list and by its concatenation
recurrence) — and `with_url` is deterministic: equal tracker states and
equal urls produce identical `OverrideSet`s and successor states (the
model fixes the hash maps' iteration order as a function of the state,
which is what the source's iteration also is). -/
theorem C9_replacers_flat_deterministic {P G : Type} :
    (∀ (os : OSet (List P)), os.replacers = (os.seds.map Prod.snd).flatten)
    ∧ (∀ (ttl : Option String), (OSet.replacers ⟨[], ttl⟩ : List P) = [])
    ∧ (∀ (g : Nat × List P) (gs : List (Nat × List P)) (ttl : Option String),
        OSet.replacers ⟨g :: gs, ttl⟩ = g.2 ++ OSet.replacers ⟨gs, ttl⟩)
    ∧ (∀ (t1 t2 : Tracker G) (u1 u2 : String), t1 = t2 → u1 = u2 →
        with_url t1 u1 = with_url t2 u2) := by
  refine ⟨fun os => rfl, fun ttl => rfl, fun g gs ttl => ?_, ?_⟩
  · simp [OSet.replacers]
  · intro t1 t2 u1 u2 h1 h2
    rw [h1, h2]

/-- Witness for C9: the determinism clause at a concrete state, and the
flat order on a concrete two-group set. -/
theorem C9_replacers_flat_deterministic_witness :
    with_url (mkTracker [(⟨.range "A" "B", none, [7]⟩ : OvChoice (List Nat))]) "A"
      = with_url (mkTracker [(⟨.range "A" "B", none, [7]⟩ : OvChoice (List Nat))]) "A"
    ∧ OSet.replacers (⟨[(0, [1, 2]), (5, [3])], none⟩ : OSet (List Nat))
      = [1, 2] ++ OSet.replacers (⟨[(5, [3])], none⟩ : OSet (List Nat)) :=
  ⟨(@C9_replacers_flat_deterministic Nat (List Nat)).2.2.2 _ _ _ _ rfl rfl,
   (@C9_replacers_flat_deterministic Nat (List Nat)).2.2.1 (0, [1, 2]) [(5, [3])] none⟩

/-! ## Claim C8 -/

/-- The remaining-ranges fold never changes the title. -/
theorem os2fold_inner_title {G : Type} (es : List (Entry G)) :
    ∀ (os : OSet G),
      (es.foldl (fun os e =>
        match e.urls with
        | .range _ _ => ⟨os.seds ++ [(e.id, e.subs)], os.title⟩
        | _ => os) os).title = os.title := by
  induction es with
  | nil => intro os; rfl
  | cons e rest ih =>
    intro os
    rw [List.foldl_cons, ih]
    cases e.urls <;> rfl

/-- Outer version of `os2fold_inner_title`. -/
theorem os2fold_title {G : Type} (l : List (String × List (Entry G))) :
    ∀ (os : OSet G),
      (l.foldl (fun os kv =>
        kv.2.foldl (fun os e =>
          match e.urls with
          | .range _ _ => ⟨os.seds ++ [(e.id, e.subs)], os.title⟩
          | _ => os) os) os).title = os.title := by
  induction l with
  | nil => intro os; rfl
  | cons kv rest ih =>
    intro os
    rw [List.foldl_cons, ih, os2fold_inner_title]

/-- The removal fold computes the last-set title. -/
theorem os1fold_title {G : Type} (es : List (Entry G)) :
    ∀ (os : OSet G),
      (es.foldl (fun os e =>
        ⟨os.seds ++ [(e.id, e.subs)],
         if e.title.isSome then e.title else os.title⟩) os).title
        = es.foldl (fun acc e => if e.title.isSome then e.title else acc) os.title := by
  induction es with
  | nil => intro os; rfl
  | cons e rest ih =>
    intro os
    rw [List.foldl_cons, List.foldl_cons, ih]

/-- Entry-predicate preservation through `alPush`. -/
theorem alPush_pred {G : Type} (P : Entry G → Prop) (e0 : Entry G) (k : String)
    (hP : P e0) :
    ∀ (m : List (String × List (Entry G))),
      (∀ kv ∈ m, ∀ e ∈ kv.2, P e) →
      ∀ kv ∈ alPush m k e0, ∀ e ∈ kv.2, P e := by
  intro m
  induction m with
  | nil =>
    intro _ kv hkv e he
    simp only [alPush, List.mem_singleton] at hkv
    subst hkv
    simp only [List.mem_singleton] at he
    subst he
    exact hP
  | cons kv0 rest ih =>
    intro hm kv hkv e he
    by_cases hk : kv0.1 = k
    · simp only [alPush, if_pos hk, List.mem_cons] at hkv
      rcases hkv with h | h
      · subst h
        simp only [List.mem_append, List.mem_singleton] at he
        rcases he with h2 | h2
        · exact hm _ (List.mem_cons_self _ _) e h2
        · subst h2; exact hP
      · exact hm kv (List.mem_cons_of_mem _ h) e he
    · simp only [alPush, if_neg hk, List.mem_cons] at hkv
      rcases hkv with h | h
      · subst h
        exact hm _ (List.mem_cons_self _ _) e he
      · exact ih (fun kv2 hkv2 => hm kv2 (List.mem_cons_of_mem _ hkv2)) kv h e he

/-- Shape predicate for tracker entries: range-derived entries carry no
title; single-derived entries carry the title and group of some
originating choice. -/
def entryShape {G : Type} (choices₀ : List (OvChoice G)) (e : Entry G) : Prop :=
  (∀ s en, e.urls = .range s en → e.title = none)
  ∧ (∀ u2, e.urls = .single u2 →
      ∃ c ∈ choices₀, e.title = c.title ∧ e.subs = c.subs)

/-- Every entry built by `OverrideTracker::new` satisfies `entryShape`. -/
theorem mkTrackerGo_shape {G : Type} (choices₀ : List (OvChoice G)) :
    ∀ (choices : List (OvChoice G)) (n : Nat)
      (m : List (String × List (Entry G))),
      (∀ c ∈ choices, c ∈ choices₀) →
      (∀ kv ∈ m, ∀ e ∈ kv.2, entryShape choices₀ e) →
      ∀ kv ∈ mkTrackerGo choices n m, ∀ e ∈ kv.2, entryShape choices₀ e := by
  intro choices
  induction choices with
  | nil => intro n m _ hm kv hkv e he; exact hm kv hkv e he
  | cons c cs ih =>
    intro n m hsub hm kv hkv e he
    have hc0 : c ∈ choices₀ := hsub c (List.mem_cons_self _ _)
    have hsub2 : ∀ c2 ∈ cs, c2 ∈ choices₀ :=
      fun c2 h2 => hsub c2 (List.mem_cons_of_mem _ h2)
    cases hu : c.urls with
    | range s en =>
      have hQ : entryShape choices₀ ⟨n, .range s en, none, c.subs⟩ :=
        ⟨fun _ _ _ => rfl, fun u2 h2 => nomatch h2⟩
      refine ih (n + 1) _ hsub2
        (alPush_pred (entryShape choices₀) ⟨n, .range s en, none, c.subs⟩ s hQ m hm)
        kv ?_ e he
      simpa [mkTrackerGo, hu] using hkv
    | single u =>
      have hQ : entryShape choices₀ ⟨n, .single u, c.title, c.subs⟩ := by
        constructor
        · intro s en h2
          exact nomatch h2
        · intro u2 h2
          exact ⟨c, hc0, rfl, rfl⟩
      refine ih (n + 1) _ hsub2
        (alPush_pred (entryShape choices₀) ⟨n, .single u, c.title, c.subs⟩ u hQ m hm)
        kv ?_ e he
      simpa [mkTrackerGo, hu] using hkv
    | list us =>
      have hfold : ∀ (l : List (Nat × String))
          (m2 : List (String × List (Entry G))),
          (∀ kv2 ∈ m2, ∀ e2 ∈ kv2.2, entryShape choices₀ e2) →
          ∀ kv2 ∈ l.foldl
              (fun m3 p => alPush m3 p.2 ⟨n + p.1, .single p.2, c.title, c.subs⟩)
              m2, ∀ e2 ∈ kv2.2, entryShape choices₀ e2 := by
        intro l
        induction l with
        | nil => intro m2 hm2; exact hm2
        | cons p ps ihp =>
          intro m2 hm2
          rw [List.foldl_cons]
          have hQ : entryShape choices₀ ⟨n + p.1, .single p.2, c.title, c.subs⟩ := by
            constructor
            · intro s en h2
              exact nomatch h2
            · intro u2 h2
              exact ⟨c, hc0, rfl, rfl⟩
          exact ihp _
            (alPush_pred (entryShape choices₀) ⟨n + p.1, .single p.2, c.title, c.subs⟩
              p.2 hQ m2 hm2)
      refine ih (n + us.eraseDups.length) _ hsub2 (hfold us.eraseDups.enum m hm)
        kv ?_ e he
      simpa [mkTrackerGo, hu] using hkv

/-- Counterexample to C8 as stated: a `Range`-derived entry never
contributes its originating choice's title — `OverrideTracker::new`
constructs it with `title: None`.  With the single choice
`Range{A,B}, title = "T"`, the set returned at `advance(B)` contains
the entry's group (it is removed there) but its title is `None`, not
`"T"`. -/
theorem C8_override_title_counterexample :
    (⟨.range "A" "B", some "T", [7]⟩ : OvChoice (List Nat)).title = some "T"
    ∧ contributes 0
        ((with_url (with_url
            (mkTracker [(⟨.range "A" "B", some "T", [7]⟩ : OvChoice (List Nat))])
            "A").2 "B").1)
    ∧ ((with_url (with_url
          (mkTracker [(⟨.range "A" "B", some "T", [7]⟩ : OvChoice (List Nat))])
          "A").2 "B").1).title = none := by
  exact ⟨rfl, by decide, by decide⟩

/-- C8 (amended): the title of the returned `OverrideSet` is that of the
last entry removed at this url that carries one (later entries override
earlier), and `None` when no removed entry carries one — where a
`Range`-derived entry never carries a title (it is dropped at
construction), while `Single`- and `List`-derived entries carry the
title (and group) of their originating `OverrideChoice`. -/
theorem C8_override_title {G : Type} :
    (∀ (t : Tracker G) (u : String),
        (with_url t u).1.title = lastTitle ((endingEntries t u).getD []))
    ∧ (∀ (choices : List (OvChoice G)), ∀ kv ∈ (mkTracker choices).unactivated,
        ∀ e ∈ kv.2, ∀ s en, e.urls = .range s en → e.title = none)
    ∧ (∀ (choices : List (OvChoice G)), ∀ kv ∈ (mkTracker choices).unactivated,
        ∀ e ∈ kv.2, ∀ u2, e.urls = .single u2 →
          ∃ c ∈ choices, e.title = c.title ∧ e.subs = c.subs) := by
  refine ⟨?_, ?_, ?_⟩
  · intro t u
    show (OSet.title _) = _
    rw [show (with_url t u).1 = _ from rfl]
    cases hend : endingEntries t u with
    | none =>
      simp only [with_url, hend, os2fold_title]
      rfl
    | some es =>
      simp only [with_url, hend, os2fold_title, os1fold_title]
      rfl
  · intro choices kv hkv e he s en hu
    exact ((mkTrackerGo_shape choices choices 0 [] (fun c h => h)
      (by intro kv2 h; cases h) kv hkv e he).1 s en hu)
  · intro choices kv hkv e he u2 hu
    exact ((mkTrackerGo_shape choices choices 0 [] (fun c h => h)
      (by intro kv2 h; cases h) kv hkv e he).2 u2 hu)

/-- Witness for C8 (amended): the title characterisation evaluated on
the counterexample run, and the range-title clause on the constructed
tracker. -/
theorem C8_override_title_witness :
    ((with_url (mkTracker [(⟨.single "A", some "T", [7]⟩ : OvChoice (List Nat))])
        "A").1).title
      = lastTitle ((endingEntries
          (mkTracker [(⟨.single "A", some "T", [7]⟩ : OvChoice (List Nat))])
          "A").getD [])
    ∧ (⟨0, .range "A" "B", none, ([7] : List Nat)⟩ : Entry (List Nat)).title = none :=
  ⟨C8_override_title.1 _ "A",
   C8_override_title.2.1 [(⟨.range "A" "B", some "T", [7]⟩ : OvChoice (List Nat))]
     ("A", [⟨0, .range "A" "B", none, [7]⟩]) (by decide)
     ⟨0, .range "A" "B", none, [7]⟩ (by decide) "A" "B" rfl⟩

/-! ## Claim C5: the lifecycle toolkit -/

/-- All entries of a tracker map. -/
def ents {G : Type} (m : List (String × List (Entry G))) : List (Entry G) :=
  m.flatMap (fun kv => kv.2)

/-- All entry ids of a tracker map. -/
def idsOf {G : Type} (m : List (String × List (Entry G))) : List Nat :=
  (ents m).map (fun e => e.id)

/-- Number of entries of the whole tracker carrying id `i`. -/
def idCount {G : Type} (t : Tracker G) (i : Nat) : Nat :=
  (idsOf t.unactivated ++ idsOf t.active).count i

/-- The designated entry sits in `unactivated` under key `k`. -/
def pendingAt {G : Type} (t : Tracker G) (k : String) (e : Entry G) : Prop :=
  ∃ v, alGet t.unactivated k = some v ∧ e ∈ v

/-- The designated entry sits in `active` under key `k`. -/
def activeAt {G : Type} (t : Tracker G) (k : String) (e : Entry G) : Prop :=
  ∃ v, alGet t.active k = some v ∧ e ∈ v

/-- `alRemove` returns the `alGet` value. -/
theorem alRemove_fst {α : Type} (m : List (String × α)) (k : String) :
    (alRemove m k).1 = alGet m k := by
  induction m with
  | nil => rfl
  | cons kv rest ih =>
    by_cases hk : kv.1 = k
    · simp [alRemove, alGet, hk]
    · simp only [alRemove, if_neg hk, alGet, List.find?]
      rw [show (kv.1 == k) = false by simpa using hk]
      simpa [alGet] using ih

/-- Lookups at other keys are unchanged by `alRemove`. -/
theorem alGet_alRemove_ne {α : Type} (m : List (String × α)) (k k2 : String)
    (h : k2 ≠ k) : alGet (alRemove m k).2 k2 = alGet m k2 := by
  induction m with
  | nil => rfl
  | cons kv rest ih =>
    by_cases hk : kv.1 = k
    · simp only [alRemove, if_pos hk, alGet, List.find?]
      rw [show (kv.1 == k2) = false by simp [hk]; exact fun h2 => h h2.symm]
    · simp only [alRemove, if_neg hk]
      by_cases hk2 : kv.1 = k2
      · simp [alGet, List.find?, hk2]
      · simp only [alGet, List.find?]
        rw [show (kv.1 == k2) = false by simpa using hk2]
        simpa [alGet] using ih

/-- Removing an absent key is the identity. -/
theorem alRemove_none {α : Type} (m : List (String × α)) (k : String)
    (h : alGet m k = none) : (alRemove m k).2 = m := by
  induction m with
  | nil => rfl
  | cons kv rest ih =>
    by_cases hk : kv.1 = k
    · exfalso
      simp [alGet, List.find?, hk] at h
    · simp only [alGet, List.find?] at h
      rw [show (kv.1 == k) = false by simpa using hk] at h
      simp only [alRemove, if_neg hk]
      rw [ih (by simpa [alGet] using h)]

/-- `a ++ (b ++ c)` is a permutation of `b ++ (a ++ c)`. -/
theorem perm_shuffle {α : Type} (a b c : List α) :
    (a ++ (b ++ c)).Perm (b ++ (a ++ c)) := by
  rw [← List.append_assoc, ← List.append_assoc]
  exact List.Perm.append_right c List.perm_append_comm

/-- Entry decomposition of a removal: the map's entries are a
permutation of the removed value's entries and the remaining entries. -/
theorem ents_alRemove_perm {G : Type} (m : List (String × List (Entry G)))
    (k : String) (v : List (Entry G)) (h : alGet m k = some v) :
    (ents m).Perm (v ++ ents (alRemove m k).2) := by
  induction m with
  | nil => cases h
  | cons kv rest ih =>
    by_cases hk : kv.1 = k
    · have hv : kv.2 = v := by
        simp only [alGet, List.find?, show (kv.1 == k) = true by simpa using hk,
          Option.map_some] at h
        injection h
      subst hv
      simp [ents, alRemove, hk]
    · simp only [alGet, List.find?,
        show (kv.1 == k) = false by simpa using hk] at h
      have hrec := ih (by simpa [alGet] using h)
      simp only [ents, List.flatMap_cons, alRemove, if_neg hk] at hrec ⊢
      exact (List.Perm.append_left kv.2 hrec).trans
        (perm_shuffle kv.2 v ((alRemove rest k).2.flatMap (fun kv => kv.2)))

/-- Entry decomposition of a push. -/
theorem ents_alPush_perm {G : Type} (m : List (String × List (Entry G)))
    (k : String) (e : Entry G) :
    (ents (alPush m k e)).Perm (e :: ents m) := by
  induction m with
  | nil => simp [ents, alPush]
  | cons kv rest ih =>
    by_cases hk : kv.1 = k
    · simp only [alPush, if_pos hk, ents, List.flatMap_cons, List.append_assoc,
        List.singleton_append]
      exact List.perm_middle
    · simp only [alPush, if_neg hk, ents, List.flatMap_cons]
      have h1 : (kv.2 ++ (alPush rest k e).flatMap (fun kv => kv.2)).Perm
          (kv.2 ++ (e :: rest.flatMap (fun kv => kv.2))) :=
        List.Perm.append_left kv.2 (by simpa [ents] using ih)
      exact h1.trans List.perm_middle

/-- Entry decomposition of the move fold of `with_url` step 1. -/
theorem ents_moveFold_perm {G : Type} (es : List (Entry G)) :
    ∀ (m : List (String × List (Entry G))),
      (ents (es.foldl (fun m e => alPush m (deactKey e) e) m)).Perm
        (es ++ ents m) := by
  induction es with
  | nil => intro m; simp
  | cons e rest ih =>
    intro m
    rw [List.foldl_cons]
    have h1 := ih (alPush m (deactKey e) e)
    have h2 : (rest ++ ents (alPush m (deactKey e) e)).Perm
        (rest ++ (e :: ents m)) :=
      List.Perm.append_left rest (ents_alPush_perm m (deactKey e) e)
    exact h1.trans (h2.trans List.perm_middle)

/-- Membership of an entry of a looked-up value in the map's entries. -/
theorem mem_ents_of_alGet {G : Type} (m : List (String × List (Entry G)))
    (k : String) (v : List (Entry G)) (e : Entry G)
    (h : alGet m k = some v) (he : e ∈ v) : e ∈ ents m := by
  induction m with
  | nil => cases h
  | cons kv rest ih =>
    by_cases hk : kv.1 = k
    · have hv : kv.2 = v := by
        simp only [alGet, List.find?, show (kv.1 == k) = true by simpa using hk,
          Option.map_some] at h
        injection h
      subst hv
      simp only [ents, List.flatMap_cons, List.mem_append]
      exact Or.inl he
    · simp only [alGet, List.find?,
        show (kv.1 == k) = false by simpa using hk] at h
      simp only [ents, List.flatMap_cons, List.mem_append]
      exact Or.inr (by simpa [ents] using ih (by simpa [alGet] using h))

/-- Lookups at other keys are unchanged by `alPush`. -/
theorem alGet_alPush_ne {G : Type} (m : List (String × List (Entry G)))
    (k k2 : String) (e : Entry G) (h : k2 ≠ k) :
    alGet (alPush m k e) k2 = alGet m k2 := by
  induction m with
  | nil =>
    have hne : (k == k2) = false := by
      simp only [beq_eq_false_iff_ne]
      exact fun h2 => h h2.symm
    simp [alPush, alGet, List.find?, hne]
  | cons kv rest ih =>
    by_cases hk : kv.1 = k
    · have hne : (kv.1 == k2) = false := by
        simp only [beq_eq_false_iff_ne, hk]
        exact fun h2 => h h2.symm
      simp [alPush, if_pos hk, alGet, List.find?, hne]
    · simp only [alPush, if_neg hk]
      by_cases hk2 : kv.1 = k2
      · simp [alGet, List.find?, hk2]
      · simp only [alGet, List.find?]
        rw [show (kv.1 == k2) = false by simpa using hk2]
        simpa [alGet] using ih

/-- Lookup at the pushed key. -/
theorem alGet_alPush_same {G : Type} (m : List (String × List (Entry G)))
    (k : String) (e : Entry G) :
    alGet (alPush m k e) k = some ((alGet m k).getD [] ++ [e]) := by
  induction m with
  | nil => simp [alPush, alGet, List.find?]
  | cons kv rest ih =>
    by_cases hk : kv.1 = k
    · simp [alPush, if_pos hk, alGet, List.find?, hk]
    · simp only [alPush, if_neg hk, alGet, List.find?]
      rw [show (kv.1 == k) = false by simpa using hk]
      simpa [alGet] using ih

/-- Number of entries carrying id `i` in an entry list. -/
def cnt {G : Type} (l : List (Entry G)) (i : Nat) : Nat :=
  (l.map (fun e => e.id)).count i

/-- `cnt` over an append. -/
theorem cnt_append {G : Type} (a b : List (Entry G)) (i : Nat) :
    cnt (a ++ b) i = cnt a i + cnt b i := by
  simp [cnt, List.count_append]

/-- `cnt` is invariant under permutation. -/
theorem cnt_perm {G : Type} {a b : List (Entry G)} (h : a.Perm b) (i : Nat) :
    cnt a i = cnt b i := by
  unfold cnt
  exact List.Perm.count_eq (List.Perm.map (fun e : Entry G => e.id) h) i

/-- A member with the id makes the count positive. -/
theorem cnt_pos_of_mem {G : Type} {l : List (Entry G)} {e : Entry G}
    (h : e ∈ l) (i : Nat) (hid : e.id = i) : 0 < cnt l i := by
  apply List.count_pos_iff.mpr
  rw [← hid]
  exact List.mem_map_of_mem _ h

/-- A zero count excludes members with the id. -/
theorem cnt_zero_not_mem {G : Type} {l : List (Entry G)} (i : Nat)
    (h : cnt l i = 0) : ∀ e ∈ l, e.id ≠ i := by
  intro e he hid
  have := cnt_pos_of_mem he i hid
  omega

/-- `idCount` splits over the two maps. -/
theorem idCount_eq {G : Type} (t : Tracker G) (i : Nat) :
    idCount t i = cnt (ents t.unactivated) i + cnt (ents t.active) i := by
  simp [idCount, idsOf, cnt, List.count_append]

/-- Step-1 decomposition of the pending entries. -/
theorem perm_pend {G : Type} (t : Tracker G) (u : String) :
    (ents t.unactivated).Perm
      (((movedEntries t u).getD []) ++ ents (pendAfter t u)) := by
  cases hmv : movedEntries t u with
  | none =>
    have h0 : alGet t.unactivated u = none := by
      rw [← alRemove_fst]; exact hmv
    simp only [Option.getD, List.nil_append]
    rw [pendAfter, alRemove_none t.unactivated u h0]
  | some v =>
    have h0 : alGet t.unactivated u = some v := by
      rw [← alRemove_fst]; exact hmv
    exact ents_alRemove_perm t.unactivated u v h0

/-- Step-1 decomposition of the map `active` after the move. -/
theorem perm_aam {G : Type} (t : Tracker G) (u : String) :
    (ents (activeAfterMove t u)).Perm
      (((movedEntries t u).getD []) ++ ents t.active) := by
  cases hmv : movedEntries t u with
  | none => simp [activeAfterMove, hmv]
  | some v =>
    simp only [activeAfterMove, hmv, Option.getD]
    exact ents_moveFold_perm v t.active

/-- Step-2 decomposition of the active map. -/
theorem perm_ending {G : Type} (t : Tracker G) (u : String) :
    (ents (activeAfterMove t u)).Perm
      (((endingEntries t u).getD []) ++ ents (activeAfter t u)) := by
  cases hend : endingEntries t u with
  | none =>
    have h0 : alGet (activeAfterMove t u) u = none := by
      rw [← alRemove_fst]; exact hend
    simp only [Option.getD, List.nil_append]
    rw [activeAfter, alRemove_none _ u h0]
  | some v =>
    have h0 : alGet (activeAfterMove t u) u = some v := by
      rw [← alRemove_fst]; exact hend
    exact ents_alRemove_perm _ u v h0

/-- The with_url balance: the tracker's id count splits into the
successor's count plus the ending entries. -/
theorem idCount_balance {G : Type} (t : Tracker G) (u : String) (i : Nat) :
    idCount t i
      = cnt (ents (pendAfter t u)) i + cnt ((endingEntries t u).getD []) i
        + cnt (ents (activeAfter t u)) i := by
  rw [idCount_eq]
  rw [cnt_perm (perm_pend t u) i, cnt_append]
  have h1 := cnt_perm (perm_aam t u) i
  have h2 := cnt_perm (perm_ending t u) i
  rw [h2] at h1
  rw [cnt_append] at h1
  rw [cnt_append] at h1
  omega

/-- The successor state's id count. -/
theorem idCount_succ {G : Type} (t : Tracker G) (u : String) (i : Nat) :
    idCount (with_url t u).2 i
      = cnt (ents (pendAfter t u)) i + cnt (ents (activeAfter t u)) i := by
  show idCount ⟨activeAfter t u, pendAfter t u⟩ i = _
  rw [idCount_eq]

/-- A pushed entry is retrievable at its deactivation key after the
move fold; entries already present under a key stay there. -/
theorem foldPush_mem_preserve {G : Type} (es : List (Entry G)) :
    ∀ (m : List (String × List (Entry G))) (k : String) (v : List (Entry G))
      (e : Entry G), alGet m k = some v → e ∈ v →
      ∃ w, alGet (es.foldl (fun m e2 => alPush m (deactKey e2) e2) m) k = some w
        ∧ e ∈ w := by
  induction es with
  | nil => intro m k v e h he; exact ⟨v, h, he⟩
  | cons e2 rest ih =>
    intro m k v e h he
    rw [List.foldl_cons]
    by_cases hk : k = deactKey e2
    · rw [hk] at h ⊢
      refine ih _ (deactKey e2) ((alGet m (deactKey e2)).getD [] ++ [e2]) e
        (alGet_alPush_same m (deactKey e2) e2) ?_
      rw [h]
      simp only [Option.getD, List.mem_append]
      exact Or.inl he
    · exact ih _ k v e (by rw [alGet_alPush_ne m (deactKey e2) k e2 hk]; exact h) he

/-- A moved entry lands under its deactivation key. -/
theorem foldPush_mem_self {G : Type} (es : List (Entry G)) :
    ∀ (m : List (String × List (Entry G))) (e : Entry G), e ∈ es →
      ∃ w, alGet (es.foldl (fun m e2 => alPush m (deactKey e2) e2) m) (deactKey e)
        = some w ∧ e ∈ w := by
  induction es with
  | nil => intro m e he; cases he
  | cons e2 rest ih =>
    intro m e he
    rw [List.foldl_cons]
    rcases List.mem_cons.mp he with h | h
    · subst h
      refine foldPush_mem_preserve rest _ (deactKey e)
        ((alGet m (deactKey e)).getD [] ++ [e]) e (alGet_alPush_same m _ e) ?_
      simp
    · exact ih _ e h

/-- Whether a url selection is a range. -/
def isRangeB : UrlSel → Bool
  | .range _ _ => true
  | _ => false

/-- The `seds` accumulated by the removal fold. -/
theorem os1fold_seds {G : Type} (es : List (Entry G)) :
    ∀ (os : OSet G),
      (es.foldl (fun os e =>
        ⟨os.seds ++ [(e.id, e.subs)],
         if e.title.isSome then e.title else os.title⟩) os).seds
        = os.seds ++ es.map (fun e => (e.id, e.subs)) := by
  induction es with
  | nil => intro os; simp
  | cons e rest ih =>
    intro os
    rw [List.foldl_cons, ih]
    simp

/-- The `seds` accumulated by the remaining-actives inner fold. -/
theorem os2fold_inner_seds {G : Type} (es : List (Entry G)) :
    ∀ (os : OSet G),
      (es.foldl (fun os e =>
        match e.urls with
        | .range _ _ => ⟨os.seds ++ [(e.id, e.subs)], os.title⟩
        | _ => os) os).seds
        = os.seds ++ (es.filter (fun e => isRangeB e.urls)).map
            (fun e => (e.id, e.subs)) := by
  induction es with
  | nil => intro os; simp
  | cons e rest ih =>
    intro os
    rw [List.foldl_cons, ih]
    cases hu : e.urls with
    | range s en => simp [hu, List.filter_cons, isRangeB]
    | single v => simp [hu, List.filter_cons, isRangeB]
    | list v => simp [hu, List.filter_cons, isRangeB]

/-- The `seds` accumulated by the remaining-actives outer fold. -/
theorem os2fold_seds {G : Type} (l : List (String × List (Entry G))) :
    ∀ (os : OSet G),
      (l.foldl (fun os kv =>
        kv.2.foldl (fun os e =>
          match e.urls with
          | .range _ _ => ⟨os.seds ++ [(e.id, e.subs)], os.title⟩
          | _ => os) os) os).seds
        = os.seds ++ l.flatMap (fun kv =>
            ((kv.2.filter (fun e => isRangeB e.urls)).map
              (fun e => (e.id, e.subs)))) := by
  induction l with
  | nil => intro os; simp
  | cons kv rest ih =>
    intro os
    rw [List.foldl_cons, ih, os2fold_inner_seds]
    simp

/-- The groups of the returned `OverrideSet`: the ending entries (in
order), then every remaining active `Range`. -/
theorem with_url_seds {G : Type} (t : Tracker G) (u : String) :
    (with_url t u).1.seds
      = ((endingEntries t u).getD []).map (fun e => (e.id, e.subs))
        ++ (activeAfter t u).flatMap (fun kv =>
            ((kv.2.filter (fun e => isRangeB e.urls)).map
              (fun e => (e.id, e.subs)))) := by
  show (OSet.seds _) = _
  cases hend : endingEntries t u with
  | none =>
    simp only [with_url, hend, os2fold_seds]
    rfl
  | some es =>
    simp only [with_url, hend, os2fold_seds, os1fold_seds]
    rfl

/-- Contribution characterisation: an id contributes to the set of one
call iff an ending entry carries it or a remaining active `Range`
carries it. -/
theorem contributes_iff {G : Type} (t : Tracker G) (u : String) (i : Nat) :
    contributes i (with_url t u).1
      ↔ ((∃ e ∈ (endingEntries t u).getD [], e.id = i)
          ∨ (∃ e ∈ ents (activeAfter t u), isRangeB e.urls = true ∧ e.id = i)) := by
  unfold contributes
  rw [with_url_seds, List.map_append]
  constructor
  · intro h
    rcases List.mem_append.mp h with hL | hR
    · rcases List.mem_map.mp hL with ⟨pr, hpr, hfst⟩
      rcases List.mem_map.mp hpr with ⟨e, he, hpe⟩
      exact Or.inl ⟨e, he, by rw [← hfst, ← hpe]⟩
    · rcases List.mem_map.mp hR with ⟨pr, hpr, hfst⟩
      rcases List.mem_flatMap.mp hpr with ⟨kv, hkv, hin⟩
      rcases List.mem_map.mp hin with ⟨e, hef, hpe⟩
      rcases List.mem_filter.mp hef with ⟨hmem, hrange⟩
      exact Or.inr ⟨e, List.mem_flatMap.mpr ⟨kv, hkv, hmem⟩, hrange,
        by rw [← hfst, ← hpe]⟩
  · rintro (⟨e, he, hid⟩ | ⟨e, he, hrange, hid⟩)
    · exact List.mem_append.mpr (Or.inl (List.mem_map.mpr
        ⟨(e.id, e.subs), List.mem_map_of_mem _ he, hid⟩))
    · rcases List.mem_flatMap.mp
        (show e ∈ (activeAfter t u).flatMap (fun kv => kv.2) from he) with
        ⟨kv, hkv, hmem⟩
      exact List.mem_append.mpr (Or.inr (List.mem_map.mpr ⟨(e.id, e.subs),
        List.mem_flatMap.mpr
          ⟨kv, hkv, List.mem_map_of_mem _ (List.mem_filter.mpr ⟨hmem, hrange⟩)⟩,
        hid⟩))

/-- The successor state of `with_url`, componentwise. -/
theorem with_url_snd {G : Type} (t : Tracker G) (u : String) :
    (with_url t u).2 = ⟨activeAfter t u, pendAfter t u⟩ := rfl

/-- A pending entry keyed away from the advanced URL stays pending. -/
theorem pendingAt_stay {G : Type} {t : Tracker G} {u A : String} {e : Entry G}
    (hne : A ≠ u) (h : pendingAt t A e) : pendingAt (with_url t u).2 A e := by
  obtain ⟨v, hv, he⟩ := h
  refine ⟨v, ?_, he⟩
  rw [with_url_snd]
  show alGet (alRemove t.unactivated u).2 A = some v
  rw [alGet_alRemove_ne t.unactivated u A hne]
  exact hv

/-- A pending entry is among the pending map's entries. -/
theorem mem_ents_of_pendingAt {G : Type} {t : Tracker G} {A : String}
    {e : Entry G} (h : pendingAt t A e) : e ∈ ents t.unactivated := by
  obtain ⟨v, hv, he⟩ := h
  exact mem_ents_of_alGet _ A v e hv he

/-- An active entry is among the active map's entries. -/
theorem mem_ents_of_activeAt {G : Type} {t : Tracker G} {B : String}
    {e : Entry G} (h : activeAt t B e) : e ∈ ents t.active := by
  obtain ⟨v, hv, he⟩ := h
  exact mem_ents_of_alGet _ B v e hv he

/-- A pending entry hit by the advanced URL lands in the moved map under
its deactivation key. -/
theorem moved_of_pendingAt_hit {G : Type} {t : Tracker G} {u : String}
    {e : Entry G} (h : pendingAt t u e) :
    ∃ w, alGet (activeAfterMove t u) (deactKey e) = some w ∧ e ∈ w := by
  obtain ⟨v, hv, he⟩ := h
  have hm : movedEntries t u = some v := by
    rw [movedEntries, alRemove_fst]; exact hv
  simp only [activeAfterMove, hm]
  exact foldPush_mem_self v t.active e he

/-- An already-active entry survives the move fold under its key. -/
theorem aam_of_activeAt {G : Type} {t : Tracker G} (u : String) {B : String}
    {e : Entry G} (h : activeAt t B e) :
    ∃ w, alGet (activeAfterMove t u) B = some w ∧ e ∈ w := by
  obtain ⟨v, hv, he⟩ := h
  cases hm : movedEntries t u with
  | none => simp only [activeAfterMove, hm]; exact ⟨v, hv, he⟩
  | some es =>
    simp only [activeAfterMove, hm]
    exact foldPush_mem_preserve es t.active B v e hv he

/-- An entry stored away from the advanced URL after the move is active
in the successor state. -/
theorem activeAt_of_aam {G : Type} {t : Tracker G} {u B : String}
    {e : Entry G} {w : List (Entry G)} (hne : B ≠ u)
    (hw : alGet (activeAfterMove t u) B = some w) (he : e ∈ w) :
    activeAt (with_url t u).2 B e := by
  refine ⟨w, ?_, he⟩
  rw [with_url_snd]
  show alGet (alRemove (activeAfterMove t u) u).2 B = some w
  rw [alGet_alRemove_ne _ u B hne]
  exact hw

/-- An entry stored at the advanced URL after the move ends this call. -/
theorem ending_of_aam {G : Type} {t : Tracker G} {u : String} {e : Entry G}
    {w : List (Entry G)} (hw : alGet (activeAfterMove t u) u = some w)
    (he : e ∈ w) : e ∈ (endingEntries t u).getD [] := by
  have h : endingEntries t u = some w := by
    rw [endingEntries, alRemove_fst]; exact hw
  rw [h]
  exact he

/-- Ending entries contribute their group. -/
theorem contrib_of_ending {G : Type} (t : Tracker G) (u : String)
    (e : Entry G) (h : e ∈ (endingEntries t u).getD []) :
    contributes e.id (with_url t u).1 :=
  (contributes_iff t u e.id).mpr (Or.inl ⟨e, h, rfl⟩)

/-- Remaining active `Range` entries contribute their group. -/
theorem contrib_of_activeRange {G : Type} (t : Tracker G) (u : String)
    (e : Entry G) (h : e ∈ ents (activeAfter t u))
    (hr : isRangeB e.urls = true) : contributes e.id (with_url t u).1 :=
  (contributes_iff t u e.id).mpr (Or.inr ⟨e, h, hr, rfl⟩)

/-- An id absent from the ending entries and the remaining active map
does not contribute. -/
theorem notContrib_of_cnts {G : Type} (t : Tracker G) (u : String) (i : Nat)
    (h1 : cnt ((endingEntries t u).getD []) i = 0)
    (h2 : cnt (ents (activeAfter t u)) i = 0) :
    ¬ contributes i (with_url t u).1 := by
  intro h
  rcases (contributes_iff t u i).mp h with ⟨e, he, hid⟩ | ⟨e, he, _, hid⟩
  · exact cnt_zero_not_mem i h1 e he hid
  · exact cnt_zero_not_mem i h2 e he hid

/-- Count bookkeeping when the entry remains pending. -/
theorem counts_of_pend {G : Type} {t : Tracker G} {u : String} {i : Nat}
    {e : Entry G} (hc : idCount t i = 1) (he : e ∈ ents (pendAfter t u))
    (hid : e.id = i) :
    cnt ((endingEntries t u).getD []) i = 0
      ∧ cnt (ents (activeAfter t u)) i = 0
      ∧ idCount (with_url t u).2 i = 1 := by
  have hb := idCount_balance t u i
  have hp := cnt_pos_of_mem he i hid
  have hs := idCount_succ t u i
  omega

/-- Count bookkeeping when the entry ends this call. -/
theorem counts_of_ending {G : Type} {t : Tracker G} {u : String} {i : Nat}
    {e : Entry G} (hc : idCount t i = 1)
    (he : e ∈ (endingEntries t u).getD []) (hid : e.id = i) :
    idCount (with_url t u).2 i = 0 := by
  have hb := idCount_balance t u i
  have hp := cnt_pos_of_mem he i hid
  have hs := idCount_succ t u i
  omega

/-- Count bookkeeping when the entry remains active. -/
theorem counts_of_active {G : Type} {t : Tracker G} {u : String} {i : Nat}
    {e : Entry G} (hc : idCount t i = 1)
    (he : e ∈ ents (activeAfter t u)) (hid : e.id = i) :
    cnt ((endingEntries t u).getD []) i = 0
      ∧ cnt (ents (pendAfter t u)) i = 0
      ∧ idCount (with_url t u).2 i = 1 := by
  have hb := idCount_balance t u i
  have hp := cnt_pos_of_mem he i hid
  have hs := idCount_succ t u i
  omega

/-- An absent id stays absent across one call and does not contribute. -/
theorem idCount_zero_succ {G : Type} (t : Tracker G) (u : String) (i : Nat)
    (h : idCount t i = 0) :
    idCount (with_url t u).2 i = 0 ∧ ¬ contributes i (with_url t u).1 := by
  have hb := idCount_balance t u i
  have hs := idCount_succ t u i
  exact ⟨by omega, notContrib_of_cnts t u i (by omega) (by omega)⟩

/-- The `OverrideSet` produced by the `k`-th advance of a sequence. -/
def outAt {G : Type} (t : Tracker G) (us : List String) (k : Nat) : OSet G :=
  (runOuts t us).getD k ⟨[], none⟩

theorem outAt_cons_zero {G : Type} (t : Tracker G) (u : String)
    (rest : List String) : outAt t (u :: rest) 0 = (with_url t u).1 := by
  simp [outAt, runOuts]

theorem outAt_cons_succ {G : Type} (t : Tracker G) (u : String)
    (rest : List String) (j : Nat) :
    outAt t (u :: rest) (j + 1) = outAt (with_url t u).2 rest j := by
  simp [outAt, runOuts]

/-- A removed id never contributes again. -/
theorem trace_gone {G : Type} (us : List String) :
    ∀ (t : Tracker G) (i : Nat), idCount t i = 0 →
      ∀ k, ¬ contributes i (outAt t us k) := by
  induction us with
  | nil =>
    intro t i _ k
    simp [outAt, runOuts, contributes]
  | cons u rest ih =>
    intro t i h k
    obtain ⟨hsucc, hnc⟩ := idCount_zero_succ t u i h
    cases k with
    | zero => rw [outAt_cons_zero]; exact hnc
    | succ j => rw [outAt_cons_succ]; exact ih (with_url t u).2 i hsucc j

/-- An active `Range` entry contributes to every call up to and
including the first advance of its key, and to none after. -/
theorem trace_active {G : Type} (us : List String) :
    ∀ (t : Tracker G) (e : Entry G) (B : String),
      activeAt t B e → isRangeB e.urls = true → idCount t e.id = 1 →
      ∀ k, k < us.length →
        (contributes e.id (outAt t us k) ↔
          ∀ rb, firstIdx B us = some rb → k ≤ rb) := by
  induction us with
  | nil => intro t e B _ _ _ k hk; cases hk
  | cons u rest ih =>
    intro t e B hact hrange hcnt k hk
    have hk2 : k < rest.length + 1 := by
      simpa using hk
    obtain ⟨w, hw, hew⟩ := aam_of_activeAt u hact
    have hfi : firstIdx B (u :: rest)
        = if u = B then some 0 else (firstIdx B rest).map (· + 1) := rfl
    by_cases hu : u = B
    · subst hu
      have hend : e ∈ (endingEntries t u).getD [] := ending_of_aam hw hew
      have hzero : idCount (with_url t u).2 e.id = 0 :=
        counts_of_ending hcnt hend rfl
      rw [if_pos rfl] at hfi
      cases k with
      | zero =>
        rw [outAt_cons_zero]
        constructor
        · intro _ rb _; exact Nat.zero_le rb
        · intro _; exact contrib_of_ending t u e hend
      | succ j =>
        rw [outAt_cons_succ]
        constructor
        · intro hcon
          exact absurd hcon (trace_gone rest (with_url t u).2 e.id hzero j)
        · intro hall
          have := hall 0 hfi
          omega
    · have hact2 : activeAt (with_url t u).2 B e :=
        activeAt_of_aam (fun h => hu h.symm) hw hew
      have hmem : e ∈ ents (activeAfter t u) := mem_ents_of_activeAt hact2
      obtain ⟨hend0, hpend0, hsucc1⟩ := counts_of_active hcnt hmem rfl
      rw [if_neg hu] at hfi
      cases k with
      | zero =>
        rw [outAt_cons_zero]
        constructor
        · intro _ rb _; exact Nat.zero_le rb
        · intro _; exact contrib_of_activeRange t u e hmem hrange
      | succ j =>
        rw [outAt_cons_succ]
        rw [ih (with_url t u).2 e B hact2 hrange hsucc1 j (by omega)]
        rw [hfi]
        constructor
        · intro h rb hrb
          cases hr : firstIdx B rest with
          | none => rw [hr] at hrb; cases hrb
          | some rb0 =>
            rw [hr] at hrb
            simp at hrb
            have := h rb0 hr
            omega
        · intro h rb0 hr0
          have := h (rb0 + 1) (by rw [hr0]; rfl)
          omega

/-- A pending `Single` entry contributes exactly at the first advance of
its URL. -/
theorem trace_pend_single {G : Type} (us : List String) :
    ∀ (t : Tracker G) (e : Entry G) (A : String),
      e.urls = .single A → pendingAt t A e → idCount t e.id = 1 →
      ∀ k, k < us.length →
        (contributes e.id (outAt t us k) ↔ firstIdx A us = some k) := by
  induction us with
  | nil => intro t e A _ _ _ k hk; cases hk
  | cons u rest ih =>
    intro t e A hurl hpend hcnt k hk
    have hk2 : k < rest.length + 1 := by simpa using hk
    have hfi : firstIdx A (u :: rest)
        = if u = A then some 0 else (firstIdx A rest).map (· + 1) := rfl
    by_cases hu : u = A
    · subst hu
      have hdk : deactKey e = u := by rw [deactKey, hurl]
      obtain ⟨w, hw, hew⟩ := moved_of_pendingAt_hit hpend
      rw [hdk] at hw
      have hend : e ∈ (endingEntries t u).getD [] := ending_of_aam hw hew
      have hzero : idCount (with_url t u).2 e.id = 0 :=
        counts_of_ending hcnt hend rfl
      rw [if_pos rfl] at hfi
      cases k with
      | zero =>
        rw [outAt_cons_zero, hfi]
        exact ⟨fun _ => rfl, fun _ => contrib_of_ending t u e hend⟩
      | succ j =>
        rw [outAt_cons_succ, hfi]
        constructor
        · intro hcon
          exact absurd hcon (trace_gone rest (with_url t u).2 e.id hzero j)
        · intro h; simp at h
    · have hpend2 : pendingAt (with_url t u).2 A e :=
        pendingAt_stay (fun h => hu h.symm) hpend
      have hmem : e ∈ ents (pendAfter t u) := mem_ents_of_pendingAt hpend2
      obtain ⟨hend0, hact0, hsucc1⟩ := counts_of_pend hcnt hmem rfl
      rw [if_neg hu] at hfi
      cases k with
      | zero =>
        rw [outAt_cons_zero, hfi]
        constructor
        · intro hcon
          exact absurd hcon (notContrib_of_cnts t u e.id hend0 hact0)
        · intro h
          cases hx : firstIdx A rest with
          | none => rw [hx] at h; cases h
          | some x => rw [hx] at h; simp at h
      | succ j =>
        rw [outAt_cons_succ, hfi]
        rw [ih (with_url t u).2 e A hurl hpend2 hsucc1 j (by omega)]
        cases hx : firstIdx A rest with
        | none => simp
        | some x => simp [Nat.succ_inj]

/-- A pending `Range` entry contributes from the first advance of its
start through the next advance of its end, inclusive, and never else. -/
theorem trace_pend_range {G : Type} (us : List String) :
    ∀ (t : Tracker G) (e : Entry G) (A B : String),
      e.urls = .range A B → pendingAt t A e → idCount t e.id = 1 →
      ∀ k, k < us.length →
        (contributes e.id (outAt t us k) ↔
          ∃ fa, firstIdx A us = some fa ∧ fa ≤ k ∧
            ∀ d, firstIdx B (us.drop fa) = some d → k ≤ fa + d) := by
  induction us with
  | nil => intro t e A B _ _ _ k hk; cases hk
  | cons u rest ih =>
    intro t e A B hurl hpend hcnt k hk
    have hk2 : k < rest.length + 1 := by simpa using hk
    have hdk : deactKey e = B := by rw [deactKey, hurl]
    have hrg : isRangeB e.urls = true := by rw [hurl]; rfl
    have hfiA : firstIdx A (u :: rest)
        = if u = A then some 0 else (firstIdx A rest).map (· + 1) := rfl
    by_cases hu : u = A
    · subst hu
      obtain ⟨w, hw, hew⟩ := moved_of_pendingAt_hit hpend
      rw [hdk] at hw
      rw [if_pos rfl] at hfiA
      by_cases hBA : B = u
      · rw [hBA] at hw
        have hend : e ∈ (endingEntries t u).getD [] := ending_of_aam hw hew
        have hzero : idCount (with_url t u).2 e.id = 0 :=
          counts_of_ending hcnt hend rfl
        have hfiB : firstIdx B (u :: rest) = some 0 := by
          show (if u = B then some 0 else (firstIdx B rest).map (· + 1)) = _
          rw [if_pos hBA.symm]
        cases k with
        | zero =>
          rw [outAt_cons_zero]
          constructor
          · intro _
            exact ⟨0, hfiA, Nat.le_refl 0, fun d hd => by
              rw [List.drop_zero, hfiB] at hd
              omega⟩
          · intro _; exact contrib_of_ending t u e hend
        | succ j =>
          rw [outAt_cons_succ]
          constructor
          · intro hcon
            exact absurd hcon (trace_gone rest (with_url t u).2 e.id hzero j)
          · rintro ⟨fa, hfa, _, hB⟩
            rw [hfiA] at hfa
            have hfa0 : fa = 0 := by injection hfa with h2; omega
            subst hfa0
            have := hB 0 (by rw [List.drop_zero, hfiB])
            omega
      · have hact2 : activeAt (with_url t u).2 B e :=
          activeAt_of_aam hBA hw hew
        have hmem : e ∈ ents (activeAfter t u) := mem_ents_of_activeAt hact2
        obtain ⟨hend0, hpend0, hsucc1⟩ := counts_of_active hcnt hmem rfl
        have hfiB : firstIdx B (u :: rest)
            = (firstIdx B rest).map (· + 1) := by
          show (if u = B then some 0 else (firstIdx B rest).map (· + 1)) = _
          rw [if_neg (fun h => hBA h.symm)]
        cases k with
        | zero =>
          rw [outAt_cons_zero]
          constructor
          · intro _
            exact ⟨0, hfiA, Nat.le_refl 0, fun d _ => by omega⟩
          · intro _; exact contrib_of_activeRange t u e hmem hrg
        | succ j =>
          rw [outAt_cons_succ]
          rw [trace_active rest (with_url t u).2 e B hact2 hrg hsucc1 j
            (by omega)]
          rw [hfiA]
          constructor
          · intro h
            refine ⟨0, rfl, by omega, ?_⟩
            intro d hd
            rw [List.drop_zero, hfiB] at hd
            cases hx : firstIdx B rest with
            | none => rw [hx] at hd; cases hd
            | some rb =>
              rw [hx] at hd
              simp at hd
              have := h rb hx
              omega
          · rintro ⟨fa, hfa, _, hB⟩ rb hrb
            have hfa0 : fa = 0 := by injection hfa with h2; omega
            subst hfa0
            have := hB (rb + 1) (by rw [List.drop_zero, hfiB, hrb]; rfl)
            omega
    · have hpend2 : pendingAt (with_url t u).2 A e :=
        pendingAt_stay (fun h => hu h.symm) hpend
      have hmem : e ∈ ents (pendAfter t u) := mem_ents_of_pendingAt hpend2
      obtain ⟨hend0, hact0, hsucc1⟩ := counts_of_pend hcnt hmem rfl
      rw [if_neg hu] at hfiA
      cases k with
      | zero =>
        rw [outAt_cons_zero]
        constructor
        · intro hcon
          exact absurd hcon (notContrib_of_cnts t u e.id hend0 hact0)
        · rintro ⟨fa, hfa, hle, _⟩
          rw [hfiA] at hfa
          cases hx : firstIdx A rest with
          | none => rw [hx] at hfa; cases hfa
          | some x =>
            rw [hx] at hfa
            simp at hfa
            omega
      | succ j =>
        rw [outAt_cons_succ]
        rw [ih (with_url t u).2 e A B hurl hpend2 hsucc1 j (by omega)]
        rw [hfiA]
        constructor
        · rintro ⟨fa, hfa, hle, hB⟩
          refine ⟨fa + 1, by rw [hfa]; rfl, by omega, ?_⟩
          intro d hd
          have := hB d hd
          omega
        · rintro ⟨fa, hfa, hle, hB⟩
          cases hx : firstIdx A rest with
          | none => rw [hx] at hfa; cases hfa
          | some x =>
            rw [hx] at hfa
            simp at hfa
            obtain hfa2 : fa = x + 1 := by omega
            subst hfa2
            refine ⟨x, rfl, by omega, ?_⟩
            intro d hd
            have := hB d hd
            omega

/-- C5: the override-tracker entry lifecycle.  For every tracker state
and entry (present exactly once, as `OverrideTracker::new` guarantees):
(1) the entry lives in at most one of the pending (`unactivated`) and
active maps; (2) a pending entry hit by an advance whose deactivation
key differs from the advanced URL moves to the active map under that
key; (3) an active entry hit by an advance of its key is removed from
the tracker; (4) a removed entry never returns and never contributes
again; (5) a pending `Range start end` entry contributes its pattern
group to exactly the calls from the first advance of `start` through
the next advance of `end` (inclusive; all calls from the first
advance of `start` on when `end` never follows); (6) a pending
`Single url` entry (the form `List` choices are fanned out into)
contributes exactly at the first advance of `url` and never again,
even if the URL recurs. -/
theorem C5_tracker_lifecycle {G : Type} (t : Tracker G) (e : Entry G) :
    (∀ k k2, idCount t e.id = 1 → pendingAt t k e → ¬ activeAt t k2 e)
    ∧ (∀ u, pendingAt t u e → deactKey e ≠ u →
        activeAt (with_url t u).2 (deactKey e) e)
    ∧ (∀ u, activeAt t u e → idCount t e.id = 1 →
        idCount (with_url t u).2 e.id = 0)
    ∧ (∀ us k, idCount t e.id = 0 → ¬ contributes e.id (outAt t us k))
    ∧ (∀ A B us k, e.urls = .range A B → pendingAt t A e →
        idCount t e.id = 1 → k < us.length →
        (contributes e.id (outAt t us k) ↔
          ∃ fa, firstIdx A us = some fa ∧ fa ≤ k ∧
            ∀ d, firstIdx B (us.drop fa) = some d → k ≤ fa + d))
    ∧ (∀ A us k, e.urls = .single A → pendingAt t A e →
        idCount t e.id = 1 → k < us.length →
        (contributes e.id (outAt t us k) ↔ firstIdx A us = some k)) := by
  refine ⟨?_, ?_, ?_, ?_, ?_, ?_⟩
  · intro k k2 hc hp ha
    have h1 := cnt_pos_of_mem (mem_ents_of_pendingAt hp) e.id rfl
    have h2 := cnt_pos_of_mem (mem_ents_of_activeAt ha) e.id rfl
    have h3 := idCount_eq t e.id
    omega
  · intro u hp hne
    obtain ⟨w, hw, hew⟩ := moved_of_pendingAt_hit hp
    exact activeAt_of_aam hne hw hew
  · intro u ha hc
    obtain ⟨w, hw, hew⟩ := aam_of_activeAt u ha
    exact counts_of_ending hc (ending_of_aam hw hew) rfl
  · intro us k h
    exact trace_gone us t e.id h k
  · intro A B us k hurl hp hc hk
    exact trace_pend_range us t e A B hurl hp hc k hk
  · intro A us k hurl hp hc hk
    exact trace_pend_single us t e A hurl hp hc k hk

/-- C5 exercised on a concrete tracker: one `Single` choice for url A,
advanced through [A, B]; the entry contributes to call 0. -/
theorem C5_tracker_lifecycle_witness :
    contributes 0
      (outAt (mkTracker [(⟨.single ("A"), some ("T"), 7⟩ : OvChoice Nat)])
        [("A"), ("B")] 0) :=
  ((C5_tracker_lifecycle
      (mkTracker [(⟨.single ("A"), some ("T"), 7⟩ : OvChoice Nat)])
      ⟨0, .single ("A"), some ("T"), 7⟩).2.2.2.2.2 ("A") [("A"), ("B")] 0 rfl
    ⟨[⟨0, .single ("A"), some ("T"), 7⟩], by decide, by decide⟩
    (by decide) (by decide)).mpr (by decide)

/-! ## Claim C2: the Display/parse round trip -/

/-- Segment shape produced by the escape-aware scanner: no unescaped
`/`, and no dangling backslash. -/
def isSeg : List Char → Bool
  | [] => true
  | c :: rest =>
    if c = '/' then false
    else if c = '\\' then
      match rest with
      | [] => false
      | _ :: r2 => isSeg r2
    else isSeg rest

theorem scanSeg_nil : scanSeg [] = .ok 0 := rfl

theorem scanSeg_slash (rest : List Char) : scanSeg ('/' :: rest) = .ok 0 := by
  rw [scanSeg.eq_def]; simp

theorem scanSeg_esc_nil (c : Char) (hc : ¬ c = '/') (hb : c = '\\') :
    scanSeg [c] = .error ("backslash without escaped character") := by
  rw [scanSeg.eq_def]; simp [hc, hb]

theorem scanSeg_esc (c d : Char) (r2 : List Char) (hc : ¬ c = '/')
    (hb : c = '\\') : scanSeg (c :: d :: r2) = (scanSeg r2).map (· + 2) := by
  rw [scanSeg.eq_def]; simp [hc, hb]

theorem scanSeg_single (c : Char) (rest : List Char) (hc : ¬ c = '/')
    (hb : ¬ c = '\\') : scanSeg (c :: rest) = (scanSeg rest).map (· + 1) := by
  rw [scanSeg.eq_def]; simp [hc, hb]

theorem isSeg_nil : isSeg [] = true := rfl

theorem isSeg_slash (rest : List Char) : isSeg ('/' :: rest) = false := by
  rw [isSeg.eq_def]; simp

theorem isSeg_esc_nil (c : Char) (hc : ¬ c = '/') (hb : c = '\\') :
    isSeg [c] = false := by
  rw [isSeg.eq_def]; simp [hc, hb]

theorem isSeg_esc (c d : Char) (r2 : List Char) (hc : ¬ c = '/')
    (hb : c = '\\') : isSeg (c :: d :: r2) = isSeg r2 := by
  rw [isSeg.eq_def]; simp [hc, hb]

theorem isSeg_single (c : Char) (rest : List Char) (hc : ¬ c = '/')
    (hb : ¬ c = '\\') : isSeg (c :: rest) = isSeg rest := by
  rw [isSeg.eq_def]; simp [hc, hb]

/-- Inverting `Except.map` at an `ok`. -/
theorem exceptMap_ok {ε α β : Type} {e : Except ε α} {f : α → β} {b : β}
    (h : e.map f = .ok b) : ∃ a, e = .ok a ∧ f a = b := by
  cases e with
  | error err => simp [Except.map] at h
  | ok a =>
    refine ⟨a, rfl, ?_⟩
    simpa [Except.map] using h

/-- The scanner consumes a segment-shaped prefix and stops at the end of
input or at an unescaped slash (fuel-indexed auxiliary). -/
theorem scanSeg_inv_aux :
    ∀ (N : Nat) (cur : List Char), cur.length ≤ N →
      ∀ n, scanSeg cur = .ok n →
        isSeg (cur.take n) = true
          ∧ (cur.drop n = [] ∨ ∃ l2, cur.drop n = '/' :: l2) := by
  intro N
  induction N with
  | zero =>
    intro cur hlen n h
    have hnil : cur = [] := List.eq_nil_of_length_eq_zero (Nat.le_zero.mp hlen)
    subst hnil
    rw [scanSeg_nil] at h
    cases h
    simp [isSeg_nil]
  | succ N ih =>
    intro cur hlen n h
    cases cur with
    | nil =>
      rw [scanSeg_nil] at h
      cases h
      simp [isSeg_nil]
    | cons c rest =>
      by_cases hc : c = '/'
      · subst hc
        rw [scanSeg_slash] at h
        cases h
        exact ⟨isSeg_nil, Or.inr ⟨rest, rfl⟩⟩
      · by_cases hb : c = '\\'
        · cases rest with
          | nil => rw [scanSeg_esc_nil c hc hb] at h; cases h
          | cons d r2 =>
            rw [scanSeg_esc c d r2 hc hb] at h
            obtain ⟨m, hm, hmn⟩ := exceptMap_ok h
            subst hmn
            have hrec := ih r2 (by simp at hlen; omega) m hm
            constructor
            · show isSeg ((c :: d :: r2).take (m + 2)) = true
              have ht : (c :: d :: r2).take (m + 2) = c :: d :: r2.take m := rfl
              rw [ht, isSeg_esc c d (r2.take m) hc hb]
              exact hrec.1
            · show (c :: d :: r2).drop (m + 2) = [] ∨ _
              have hd : (c :: d :: r2).drop (m + 2) = r2.drop m := rfl
              rw [hd]
              exact hrec.2
        · rw [scanSeg_single c rest hc hb] at h
          obtain ⟨m, hm, hmn⟩ := exceptMap_ok h
          subst hmn
          have hrec := ih rest (by simp at hlen; omega) m hm
          constructor
          · have ht : (c :: rest).take (m + 1) = c :: rest.take m := rfl
            rw [ht, isSeg_single c (rest.take m) hc hb]
            exact hrec.1
          · have hd : (c :: rest).drop (m + 1) = rest.drop m := rfl
            rw [hd]
            exact hrec.2

/-- The scanner consumes a segment-shaped prefix and stops at the end of
input or at an unescaped slash. -/
theorem scanSeg_ok_inv (cur : List Char) (n : Nat) (h : scanSeg cur = .ok n) :
    isSeg (cur.take n) = true
      ∧ (cur.drop n = [] ∨ ∃ l2, cur.drop n = '/' :: l2) :=
  scanSeg_inv_aux cur.length cur (Nat.le_refl _) n h

/-- On a segment followed by nothing or by a slash, the scanner consumes
exactly the segment (fuel-indexed auxiliary). -/
theorem scanSeg_closed_aux :
    ∀ (N : Nat) (t : List Char), t.length ≤ N → isSeg t = true →
      ∀ l, (l = [] ∨ ∃ l2, l = '/' :: l2) →
        scanSeg (t ++ l) = .ok t.length := by
  intro N
  induction N with
  | zero =>
    intro t hlen _ l hl
    have hnil : t = [] := List.eq_nil_of_length_eq_zero (Nat.le_zero.mp hlen)
    subst hnil
    rcases hl with rfl | ⟨l2, rfl⟩
    · simp [scanSeg_nil]
    · simp [scanSeg_slash]
  | succ N ih =>
    intro t hlen hseg l hl
    cases t with
    | nil =>
      rcases hl with rfl | ⟨l2, rfl⟩
      · simp [scanSeg_nil]
      · simp [scanSeg_slash]
    | cons c rest =>
      by_cases hc : c = '/'
      · rw [hc, isSeg_slash] at hseg; cases hseg
      · by_cases hb : c = '\\'
        · cases rest with
          | nil => rw [isSeg_esc_nil c hc hb] at hseg; cases hseg
          | cons d r2 =>
            rw [isSeg_esc c d r2 hc hb] at hseg
            have hrec := ih r2 (by simp at hlen; omega) hseg l hl
            show scanSeg (c :: d :: (r2 ++ l)) = _
            rw [scanSeg_esc c d (r2 ++ l) hc hb, hrec]
            show Except.ok (r2.length + 2) = _
            simp [List.length_cons]
        · rw [isSeg_single c rest hc hb] at hseg
          have hrec := ih rest (by simp at hlen; omega) hseg l hl
          show scanSeg (c :: (rest ++ l)) = _
          rw [scanSeg_single c (rest ++ l) hc hb, hrec]
          show Except.ok (rest.length + 1) = _
          simp [List.length_cons]

/-- On a segment followed by nothing or by a slash, the scanner consumes
exactly the segment. -/
theorem scanSeg_closed (t : List Char) (hseg : isSeg t = true)
    (l : List Char) (hl : l = [] ∨ ∃ l2, l = '/' :: l2) :
    scanSeg (t ++ l) = .ok t.length :=
  scanSeg_closed_aux t.length t (Nat.le_refl _) hseg l hl

/-- The selector stage skips when the separator is not `;`. -/
theorem selStage_skip {σ : Type} (selP : List Char → Option σ) (selsep : Char)
    (cur : List Char) (h : ¬ selsep = ';') :
    parseSelStage selP selsep cur = .ok (none, selsep, cur) := by
  simp [parseSelStage, h]

/-- The selector stage on a rendered selector at the end of input. -/
theorem selStage_disp_end {σ : Type} (selP : List Char → Option σ)
    (t : List Char) (sv : σ) (hseg : isSeg t = true)
    (ht : trimEmpty t = false) (hsv : selP t = some sv) :
    parseSelStage selP ';' t = .ok (some (sv, t), nullChar, []) := by
  have hs : scanSeg t = .ok t.length := by
    have h0 := scanSeg_closed t hseg [] (Or.inl rfl)
    rwa [List.append_nil] at h0
  simp [parseSelStage, hs, List.take_length, List.drop_length, ht, hsv]

/-- The selector stage on a rendered selector followed by a slash. -/
theorem selStage_disp_mid {σ : Type} (selP : List Char → Option σ)
    (t l : List Char) (sv : σ) (hseg : isSeg t = true)
    (ht : trimEmpty t = false) (hsv : selP t = some sv) :
    parseSelStage selP ';' (t ++ '/' :: l) = .ok (some (sv, t), '/', l) := by
  have hs : scanSeg (t ++ '/' :: l) = .ok t.length :=
    scanSeg_closed t hseg ('/' :: l) (Or.inr ⟨l, rfl⟩)
  have htake : (t ++ '/' :: l).take t.length = t := by simp
  have hdrop : (t ++ '/' :: l).drop t.length = '/' :: l := by simp
  simp [parseSelStage, hs, htake, hdrop, ht, hsv]

/-- The regex stage skips when the separator is not `/`. -/
theorem regStage_skip {ρ : Type} (regP : List Char → Option ρ) (s2 : Char)
    (cur : List Char) (h : ¬ s2 = '/') :
    parseRegStage regP s2 cur = .ok (none, cur) := by
  simp [parseRegStage, h]

/-- The regex stage on a rendered regex with its closing slash. -/
theorem regStage_disp {ρ : Type} (regP : List Char → Option ρ)
    (r l : List Char) (rv : ρ) (hseg : isSeg r = true) (hne : r ≠ [])
    (hrv : regP r = some rv) :
    parseRegStage regP '/' (r ++ '/' :: l) = .ok (some (rv, r), l) := by
  have hs : scanSeg (r ++ '/' :: l) = .ok r.length :=
    scanSeg_closed r hseg ('/' :: l) (Or.inr ⟨l, rfl⟩)
  have htake : (r ++ '/' :: l).take r.length = r := by simp
  have hdrop : (r ++ '/' :: l).drop r.length = '/' :: l := by simp
  have hemp : r.isEmpty = false := by
    cases r
    · exact absurd rfl hne
    · rfl
  simp [parseRegStage, hs, htake, hdrop, hemp, hrv]

/-- The replacement stage on a rendered replacement with its final
slash. -/
theorem repStage_disp (rep : List Char) (hseg : isSeg rep = true) :
    parseRepStage (rep ++ ['/']) = .ok rep := by
  have hs : scanSeg (rep ++ ['/']) = .ok rep.length :=
    scanSeg_closed rep hseg ['/'] (Or.inr ⟨[], rfl⟩)
  have htake : (rep ++ ['/']).take rep.length = rep := by simp
  have hdrop : (rep ++ ['/']).drop rep.length = ['/'] := by simp
  simp [parseRepStage, hs, htake, hdrop]

/-- Inversion of the selector stage: an accepted selector is a
nonempty-after-trim segment that the engine compiles. -/
theorem selStage_inv {σ : Type} (selP : List Char → Option σ) (selsep : Char)
    (cur : List Char) {out : Option (σ × List Char) × Char × List Char}
    (h : parseSelStage selP selsep cur = .ok out) :
    out.1 = none
      ∨ ∃ sv t, out.1 = some (sv, t) ∧ isSeg t = true
          ∧ trimEmpty t = false ∧ selP t = some sv := by
  by_cases hsep : selsep = ';'
  · subst hsep
    cases hscan : scanSeg cur with
    | error e =>
      have h0 : parseSelStage selP ';' cur = .error e := by
        simp [parseSelStage, hscan]
      rw [h0] at h
      cases h
    | ok n =>
      by_cases htr : trimEmpty (cur.take n) = true
      · have h0 : parseSelStage selP ';' cur
            = .error ("cannot use empty selector") := by
          simp [parseSelStage, hscan, htr]
        rw [h0] at h
        cases h
      · have htr2 : trimEmpty (cur.take n) = false := by simpa using htr
        cases hsv : selP (cur.take n) with
        | none =>
          have h0 : parseSelStage selP ';' cur
              = .error ("invalid selector") := by
            simp [parseSelStage, hscan, htr2, hsv]
          rw [h0] at h
          cases h
        | some sv =>
          cases hdrop : cur.drop n with
          | nil =>
            have h0 : parseSelStage selP ';' cur
                = .ok (some (sv, cur.take n), nullChar, []) := by
              simp [parseSelStage, hscan, htr2, hsv, hdrop]
            rw [h0] at h
            have h1 := Except.ok.inj h
            subst h1
            exact Or.inr ⟨sv, cur.take n, rfl,
              (scanSeg_ok_inv cur n hscan).1, htr2, hsv⟩
          | cons c0 cur2 =>
            have h0 : parseSelStage selP ';' cur
                = .ok (some (sv, cur.take n), c0, cur2) := by
              simp [parseSelStage, hscan, htr2, hsv, hdrop]
            rw [h0] at h
            have h1 := Except.ok.inj h
            subst h1
            exact Or.inr ⟨sv, cur.take n, rfl,
              (scanSeg_ok_inv cur n hscan).1, htr2, hsv⟩
  · have h0 := selStage_skip selP selsep cur hsep
    rw [h0] at h
    have h1 := Except.ok.inj h
    subst h1
    exact Or.inl rfl

/-- Inversion of the regex stage: an accepted regex is a nonempty
segment that the engine compiles. -/
theorem regStage_inv {ρ : Type} (regP : List Char → Option ρ) (s2 : Char)
    (cur : List Char) {out : Option (ρ × List Char) × List Char}
    (h : parseRegStage regP s2 cur = .ok out) :
    out.1 = none
      ∨ ∃ rv r, out.1 = some (rv, r) ∧ isSeg r = true ∧ r ≠ []
          ∧ regP r = some rv := by
  by_cases hsep : s2 = '/'
  · subst hsep
    cases hscan : scanSeg cur with
    | error e =>
      have h0 : parseRegStage regP '/' cur = .error e := by
        simp [parseRegStage, hscan]
      rw [h0] at h
      cases h
    | ok n =>
      cases hdrop : cur.drop n with
      | nil =>
        have h0 : parseRegStage regP '/' cur
            = .error ("no trailing slash for regex") := by
          simp [parseRegStage, hscan, hdrop]
        rw [h0] at h
        cases h
      | cons c0 cur2 =>
        by_cases hemp : (cur.take n).isEmpty = true
        · have h0 : parseRegStage regP '/' cur
              = .error ("cannot use empty regex") := by
            simp [parseRegStage, hscan, hdrop, hemp]
          rw [h0] at h
          cases h
        · have hemp2 : (cur.take n).isEmpty = false := by simpa using hemp
          cases hrv : regP (cur.take n) with
          | none =>
            have h0 : parseRegStage regP '/' cur
                = .error ("invalid regex") := by
              simp [parseRegStage, hscan, hdrop, hemp2, hrv]
            rw [h0] at h
            cases h
          | some rv =>
            have h0 : parseRegStage regP '/' cur
                = .ok (some (rv, cur.take n), cur2) := by
              simp [parseRegStage, hscan, hdrop, hemp2, hrv]
            rw [h0] at h
            have h1 := Except.ok.inj h
            subst h1
            refine Or.inr ⟨rv, cur.take n, rfl,
              (scanSeg_ok_inv cur n hscan).1, ?_, hrv⟩
            intro hnil
            rw [hnil] at hemp2
            cases hemp2
  · have h0 := regStage_skip regP s2 cur hsep
    rw [h0] at h
    have h1 := Except.ok.inj h
    subst h1
    exact Or.inl rfl

/-- Inversion of the replacement stage: the replacement is a segment. -/
theorem repStage_inv (cur : List Char) {rep : List Char}
    (h : parseRepStage cur = .ok rep) : isSeg rep = true := by
  cases hscan : scanSeg cur with
  | error e =>
    have h0 : parseRepStage cur = .error e := by simp [parseRepStage, hscan]
    rw [h0] at h
    cases h
  | ok n =>
    cases hdrop : cur.drop n with
    | nil =>
      have h0 : parseRepStage cur
          = .error ("no trailing slash for replacement") := by
        simp [parseRepStage, hscan, hdrop]
      rw [h0] at h
      cases h
    | cons c0 cur2 =>
      have h0 : parseRepStage cur = .ok (cur.take n) := by
        simp [parseRepStage, hscan, hdrop]
      rw [h0] at h
      have h1 := Except.ok.inj h
      subst h1
      exact (scanSeg_ok_inv cur n hscan).1

/-- Inversion of the validation tail. -/
theorem finishSed_inv {σ ρ : Type} (op : Op) (sel : Option (σ × List Char))
    (reg : Option (ρ × List Char)) {sed : Sed σ ρ}
    (h : finishSed op sel reg = .ok sed) :
    sed = ⟨op, sel, reg⟩ ∧ (sel.isSome = true ∨ reg.isSome = true)
      ∧ ¬ (op = Op.Print ∧ reg.isNone = true) := by
  by_cases h1 : sel.isSome = true ∨ reg.isSome = true
  · by_cases h2 : op = Op.Print ∧ reg.isNone = true
    · have h0 : finishSed op sel reg = .error ("p directive requires regex") := by
        simp only [finishSed, if_pos h1, if_pos h2]
      rw [h0] at h
      cases h
    · have h0 : finishSed op sel reg = .ok ⟨op, sel, reg⟩ := by
        simp only [finishSed, if_pos h1, if_neg h2]
      rw [h0] at h
      have h3 := Except.ok.inj h
      exact ⟨h3.symm, h1, h2⟩
  · have h0 : finishSed op sel reg = .error ("assert failed: sel or reg") := by
      simp only [finishSed, if_neg h1]
    rw [h0] at h
    cases h

/-- Everything a successful parse guarantees about the produced pattern:
each stored source text is a slash-free (under escapes) segment its
engine compiles, the selector text is nonempty after trim, the regex
text is nonempty, substitute and print operations carry a regex, and at
least one of selector and regex is present. -/
def WfSed {σ ρ : Type} (selP : List Char → Option σ)
    (regP : List Char → Option ρ) (sed : Sed σ ρ) : Prop :=
  (match sed.sel with
   | none => True
   | some (sv, t) => isSeg t = true ∧ trimEmpty t = false ∧ selP t = some sv)
  ∧ (match sed.reg with
   | none => True
   | some (rv, r) => isSeg r = true ∧ r ≠ [] ∧ regP r = some rv)
  ∧ (match sed.op with
   | .Replace rep => isSeg rep = true ∧ sed.reg.isSome = true
   | .Print => sed.reg.isSome = true
   | _ => True)
  ∧ (sed.sel.isSome = true ∨ sed.reg.isSome = true)

/-- A successful `parseAfterSep` yields a well-formed pattern. -/
theorem afterSep_inv {σ ρ : Type} (selP : List Char → Option σ)
    (regP : List Char → Option ρ) (opk selsep : Char) (cur : List Char)
    {sed : Sed σ ρ} (h : parseAfterSep selP regP opk selsep cur = .ok sed) :
    WfSed selP regP sed := by
  cases hsel : parseSelStage selP selsep cur with
  | error e => simp [parseAfterSep, hsel] at h
  | ok out1 =>
    obtain ⟨sel, selsep2, cur2⟩ := out1
    cases hreg : parseRegStage regP selsep2 cur2 with
    | error e => simp [parseAfterSep, hsel, hreg] at h
    | ok out2 =>
      obtain ⟨reg, cur3⟩ := out2
      have hselwf : sel = none
          ∨ ∃ sv t, sel = some (sv, t) ∧ isSeg t = true
              ∧ trimEmpty t = false ∧ selP t = some sv :=
        selStage_inv selP selsep cur hsel
      have hregwf : reg = none
          ∨ ∃ rv r, reg = some (rv, r) ∧ isSeg r = true ∧ r ≠ []
              ∧ regP r = some rv :=
        regStage_inv regP selsep2 cur2 hreg
      by_cases hop : opk = 's'
      · subst hop
        by_cases hrs : reg.isSome = true
        · cases hrep : parseRepStage cur3 with
          | error e => simp [parseAfterSep, hsel, hreg, hrs, hrep] at h
          | ok rep =>
            have h0 : parseAfterSep selP regP 's' selsep cur
                = finishSed (Op.Replace rep) sel reg := by
              simp [parseAfterSep, hsel, hreg, hrs, hrep]
            rw [h0] at h
            obtain ⟨hsed, hor, _⟩ := finishSed_inv _ _ _ h
            subst hsed
            refine ⟨?_, ?_, ⟨repStage_inv cur3 hrep, hrs⟩, hor⟩
            · rcases hselwf with h1 | ⟨sv, t, h1, h2, h3, h4⟩
              · rw [h1]; trivial
              · rw [h1]; exact ⟨h2, h3, h4⟩
            · rcases hregwf with h1 | ⟨rv, r, h1, h2, h3, h4⟩
              · rw [h1]; trivial
              · rw [h1]; exact ⟨h2, h3, h4⟩
        · simp [parseAfterSep, hsel, hreg, hrs] at h
      · have h0 : parseAfterSep selP regP opk selsep cur
            = finishSed (if opk = 'd' then Op.Delete
                else if opk = 'p' then Op.Print
                else if opk = 'P' then Op.PrintAll
                else Op.Match) sel reg := by
          simp [parseAfterSep, hsel, hreg, hop]
        rw [h0] at h
        obtain ⟨hsed, hor, hpr⟩ := finishSed_inv _ _ _ h
        subst hsed
        refine ⟨?_, ?_, ?_, hor⟩
        · rcases hselwf with h1 | ⟨sv, t, h1, h2, h3, h4⟩
          · rw [h1]; trivial
          · rw [h1]; exact ⟨h2, h3, h4⟩
        · rcases hregwf with h1 | ⟨rv, r, h1, h2, h3, h4⟩
          · rw [h1]; trivial
          · rw [h1]; exact ⟨h2, h3, h4⟩
        · by_cases hd : opk = 'd'
          · simp [hd]
          · by_cases hp : opk = 'p'
            · simp [hd, hp] at hpr ⊢
              cases reg with
              | none => simp at hpr
              | some v => simp
            · by_cases hP : opk = 'P'
              · simp [hd, hp, hP]
              · simp [hd, hp, hP]

/-- A successful `parse_sed` yields a well-formed pattern. -/
theorem parse_sed_inv {σ ρ : Type} (selP : List Char → Option σ)
    (regP : List Char → Option ρ) (s : List Char) {sed : Sed σ ρ}
    (h : parse_sed selP regP s = .ok sed) : WfSed selP regP sed := by
  cases s with
  | nil => simp [parse_sed] at h
  | cons opk rest =>
    by_cases hmem : opk ∈ opChars
    · by_cases h2 : opk = '/' ∨ opk = ';'
      · have h0 : parse_sed selP regP (opk :: rest)
            = parseAfterSep selP regP opk opk rest := by
          simp [parse_sed, hmem, h2]
        rw [h0] at h
        exact afterSep_inv selP regP opk opk rest h
      · cases rest with
        | nil => simp [parse_sed, hmem, h2] at h
        | cons selsep cur =>
          by_cases h3 : selsep = '/' ∨ selsep = ';'
          · have h0 : parse_sed selP regP (opk :: selsep :: cur)
                = parseAfterSep selP regP opk selsep cur := by
              simp [parse_sed, hmem, h2, h3]
            rw [h0] at h
            exact afterSep_inv selP regP opk selsep cur h
          · simp [parse_sed, hmem, h2, h3] at h
    · simp [parse_sed, hmem] at h

/-- Rendering a well-formed pattern and reparsing it succeeds and
returns the pattern itself. -/
theorem parse_disp {σ ρ : Type} (selP : List Char → Option σ)
    (regP : List Char → Option ρ) (sed : Sed σ ρ)
    (hwf : WfSed selP regP sed) :
    parse_sed selP regP (dispSed sed) = .ok sed := by
  obtain ⟨op, sel, reg⟩ := sed
  obtain ⟨hsel, hreg, hop, hsome⟩ := hwf
  cases sel with
  | some sp =>
    obtain ⟨sv, t⟩ := sp
    obtain ⟨hseg, htr, hsv⟩ := hsel
    cases reg with
    | some rp =>
      obtain ⟨rv, r⟩ := rp
      obtain ⟨hsegr, hner, hrv⟩ := hreg
      cases op with
      | Match =>
        have e1 := selStage_disp_mid selP t (r ++ ['/']) sv hseg htr hsv
        have e2 := regStage_disp regP r [] rv hsegr hner hrv
        simp +decide [dispSed, dispOp, parse_sed, opChars, parseAfterSep,
          e1, e2, finishSed]
      | Delete =>
        have e1 := selStage_disp_mid selP t (r ++ ['/']) sv hseg htr hsv
        have e2 := regStage_disp regP r [] rv hsegr hner hrv
        simp +decide [dispSed, dispOp, parse_sed, opChars, parseAfterSep,
          e1, e2, finishSed]
      | Print =>
        have e1 := selStage_disp_mid selP t (r ++ ['/']) sv hseg htr hsv
        have e2 := regStage_disp regP r [] rv hsegr hner hrv
        simp +decide [dispSed, dispOp, parse_sed, opChars, parseAfterSep,
          e1, e2, finishSed]
      | PrintAll =>
        have e1 := selStage_disp_mid selP t (r ++ ['/']) sv hseg htr hsv
        have e2 := regStage_disp regP r [] rv hsegr hner hrv
        simp +decide [dispSed, dispOp, parse_sed, opChars, parseAfterSep,
          e1, e2, finishSed]
      | Replace rep =>
        obtain ⟨hrseg, _⟩ := hop
        have e1 := selStage_disp_mid selP t (r ++ '/' :: (rep ++ ['/'])) sv
          hseg htr hsv
        have e2 := regStage_disp regP r (rep ++ ['/']) rv hsegr hner hrv
        have e3 := repStage_disp rep hrseg
        simp +decide [dispSed, dispOp, parse_sed, opChars, parseAfterSep,
          e1, e2, e3, finishSed]
    | none =>
      cases op with
      | Match =>
        have e1 := selStage_disp_end selP t sv hseg htr hsv
        have e2 := regStage_skip regP nullChar [] (by decide)
        simp +decide [dispSed, dispOp, parse_sed, opChars, parseAfterSep,
          e1, e2, finishSed]
      | Delete =>
        have e1 := selStage_disp_end selP t sv hseg htr hsv
        have e2 := regStage_skip regP nullChar [] (by decide)
        simp +decide [dispSed, dispOp, parse_sed, opChars, parseAfterSep,
          e1, e2, finishSed]
      | PrintAll =>
        have e1 := selStage_disp_end selP t sv hseg htr hsv
        have e2 := regStage_skip regP nullChar [] (by decide)
        simp +decide [dispSed, dispOp, parse_sed, opChars, parseAfterSep,
          e1, e2, finishSed]
      | Print => simp at hop
      | Replace rep =>
        obtain ⟨_, hx⟩ := hop
        simp at hx
  | none =>
    cases reg with
    | none => simp at hsome
    | some rp =>
      obtain ⟨rv, r⟩ := rp
      obtain ⟨hsegr, hner, hrv⟩ := hreg
      cases op with
      | Match =>
        have e1 := selStage_skip selP '/' (r ++ ['/']) (by decide)
        have e2 := regStage_disp regP r [] rv hsegr hner hrv
        simp +decide [dispSed, dispOp, parse_sed, opChars, parseAfterSep,
          e1, e2, finishSed]
      | Delete =>
        have e1 := selStage_skip selP '/' (r ++ ['/']) (by decide)
        have e2 := regStage_disp regP r [] rv hsegr hner hrv
        simp +decide [dispSed, dispOp, parse_sed, opChars, parseAfterSep,
          e1, e2, finishSed]
      | Print =>
        have e1 := selStage_skip selP '/' (r ++ ['/']) (by decide)
        have e2 := regStage_disp regP r [] rv hsegr hner hrv
        simp +decide [dispSed, dispOp, parse_sed, opChars, parseAfterSep,
          e1, e2, finishSed]
      | PrintAll =>
        have e1 := selStage_skip selP '/' (r ++ ['/']) (by decide)
        have e2 := regStage_disp regP r [] rv hsegr hner hrv
        simp +decide [dispSed, dispOp, parse_sed, opChars, parseAfterSep,
          e1, e2, finishSed]
      | Replace rep =>
        obtain ⟨hrseg, _⟩ := hop
        have e1 := selStage_skip selP '/' (r ++ '/' :: (rep ++ ['/']))
          (by decide)
        have e2 := regStage_disp regP r (rep ++ ['/']) rv hsegr hner hrv
        have e3 := repStage_disp rep hrseg
        simp +decide [dispSed, dispOp, parse_sed, opChars, parseAfterSep,
          e1, e2, e3, finishSed]

/-- C2: for every rule string the compiler accepts, rendering the
compiled pattern through `Display` and recompiling the rendering
succeeds and returns the very same pattern (hence also one equal under
the source's `PartialEq`); and a `Match`-operation pattern renders with
no operation letter, starting directly with its bare separator
(`;selector` or `/regex/`). -/
theorem C2_display_roundtrip {σ ρ : Type} (selP : List Char → Option σ)
    (regP : List Char → Option ρ) (s : List Char) (sed : Sed σ ρ)
    (h : parse_sed selP regP s = .ok sed) :
    parse_sed selP regP (dispSed sed) = .ok sed
      ∧ (sed.op = .Match →
          dispSed sed
            = (match sed.sel with
               | none => []
               | some (_, t) => ';' :: t)
              ++ (match sed.reg with
                  | none => []
                  | some (_, r) => '/' :: (r ++ ['/']))) := by
  refine ⟨parse_disp selP regP sed (parse_sed_inv selP regP s h), ?_⟩
  intro hm
  simp [dispSed, dispOp, hm]

/-- C2 exercised on the concrete rule `d;div/x/`. -/
theorem C2_display_roundtrip_witness :
    parse_sed (fun _ => some ()) (fun _ => some ())
        (dispSed (⟨Op.Delete, some ((), ['d', 'i', 'v']),
          some ((), ['x'])⟩ : Sed Unit Unit))
      = .ok ⟨Op.Delete, some ((), ['d', 'i', 'v']), some ((), ['x'])⟩ :=
  (C2_display_roundtrip (fun _ => some ()) (fun _ => some ())
    ['d', ';', 'd', 'i', 'v', '/', 'x', '/']
    ⟨Op.Delete, some ((), ['d', 'i', 'v']), some ((), ['x'])⟩ rfl).1

end WnSpec
